import Mathlib

/-!
# A shallow embedding of `main.cpp` (boramalper/brainfuck)

The pipeline of the program is `translate`, `optimise`, `annotate`
(`annotate_forward` then `annotate_backward`), and the executor loop of `main`.

Modelling conventions.

* `std::vector<T>` is `List T`; `push_back` is `++ [x]`; `result[result.size() - 1]`
  is `getLast?`.
* `char` source bytes are `Char`; only the eight characters of the `switch` matter.
* `ssize_t data` is an unbounded `Int`.  `optimise` changes it by one per merged
  instruction, so on a program built from a source its magnitude is bounded by
  the source length, which a `std::vector<char>` keeps below `2^63`: no signed
  overflow occurs.  The size of a vector is a `size_t`, hence below `2^64`.
* `size_t` (`iptr`, `dptr`) is a `Nat` reduced modulo `2^64`; a tape cell
  (`uint_fast8_t`, eight bits on the usual platforms) is a `Nat` reduced modulo `256`.
* Undefined behaviour (`stack.top()` on an empty stack, `tape[dptr]` with
  `dptr >= 30000`) and the `throw` of `optimise` are `none`.
-/

namespace Brainfuck

/-! ## Data model -/

/-- The enumeration `com` of the eight commands. -/
inductive com where
  | IncDptr
  | DecDptr
  | IncCell
  | DecCell
  | OutCell
  | InpCell
  | JumpFwd
  | JumpBwd
  deriving DecidableEq, Repr

/-- The instruction record `struct ins`. -/
structure ins where
  com : com
  data : Int
  deriving DecidableEq, Repr

/-! ## `translate` -/

/-- One iteration of the `for` loop of `translate`: the `switch` on the source byte. -/
def translate_body (program : List ins) (ch : Char) : List ins :=
  match ch with
  | '>' => program ++ [⟨com.IncDptr, 1⟩]
  | '<' => program ++ [⟨com.DecDptr, -1⟩]
  | '+' => program ++ [⟨com.IncCell, 1⟩]
  | '-' => program ++ [⟨com.DecCell, -1⟩]
  | '.' => program ++ [⟨com.OutCell, 0⟩]
  | ',' => program ++ [⟨com.InpCell, 0⟩]
  | '[' => program ++ [⟨com.JumpFwd, 0⟩]
  | ']' => program ++ [⟨com.JumpBwd, 0⟩]
  | _ => program

/-- The function `translate`: a left-to-right loop over the source, starting from the
empty program. -/
def translate (source : List Char) : List ins :=
  source.foldl translate_body []

/-! ## `optimise` -/

/-- One iteration of the `for` loop of `optimise`.  The first `switch` copies the four
non-mergeable commands; the `if` copies an instruction that starts a new run; the second
`switch` bumps the data of the last instruction of `result`, and its `default` branch
throws (`none`). -/
def optimise_body (result : List ins) (i : ins) : Option (List ins) :=
  match i.com with
  | .OutCell | .InpCell | .JumpFwd | .JumpBwd => some (result ++ [i])
  | _ =>
    match result.getLast? with
    | none => some (result ++ [i])
    | some last =>
      if last.com ≠ i.com then some (result ++ [i])
      else
        match i.com with
        | .IncCell | .IncDptr => some (result.dropLast ++ [⟨last.com, last.data + 1⟩])
        | .DecCell | .DecDptr => some (result.dropLast ++ [⟨last.com, last.data - 1⟩])
        | _ => none

/-- The function `optimise`: the loop over `program` starting from an empty `result`;
`none` is the `throw`. -/
def optimise (program : List ins) : Option (List ins) :=
  program.foldlM optimise_body []

/-! ## `annotate` -/

/-- Body of the loop of `annotate_forward` at index `i`; the state is the program being
patched and the stack.  Reading the top of an empty stack is undefined (`none`). -/
def annotate_forward_body (st : List ins × List Nat) (i : Nat) :
    Option (List ins × List Nat) :=
  match st.1.get? i with
  | none => none
  | some x =>
    match x.com with
    | .JumpBwd => some (st.1, i :: st.2)
    | .JumpFwd =>
      match st.2 with
      | [] => none
      | top :: rest => some (st.1.set i ⟨x.com, (top : Int)⟩, rest)
    | _ => some st

/-- The function `annotate_forward`: `i` runs from `program.size() - 1` down to `0`. -/
def annotate_forward (program : List ins) : Option (List ins) :=
  ((List.range program.length).reverse.foldlM annotate_forward_body (program, [])).map
    Prod.fst

/-- Body of the loop of `annotate_backward` at index `i`. -/
def annotate_backward_body (st : List ins × List Nat) (i : Nat) :
    Option (List ins × List Nat) :=
  match st.1.get? i with
  | none => none
  | some x =>
    match x.com with
    | .JumpFwd => some (st.1, i :: st.2)
    | .JumpBwd =>
      match st.2 with
      | [] => none
      | top :: rest => some (st.1.set i ⟨x.com, (top : Int)⟩, rest)
    | _ => some st

/-- The function `annotate_backward`: `i` runs from `0` up to `program.size() - 1`. -/
def annotate_backward (program : List ins) : Option (List ins) :=
  ((List.range program.length).foldlM annotate_backward_body (program, [])).map Prod.fst

/-- The function `annotate`: the forward pass, then the backward pass. -/
def annotate (program : List ins) : Option (List ins) :=
  (annotate_forward program).bind annotate_backward

/-! ## `compile` -/

/-- The function `compile`: `optimise (translate source)`, then `annotate`. -/
def compile (source : List Char) : Option (List ins) :=
  (optimise (translate source)).bind annotate

/-! ## The executor loop of `main` -/

/-- Number of cells of `tape`. -/
def TAPE_SIZE : Nat := 30000

/-- Conversion of a signed value to `size_t`. -/
def to_size_t (v : Int) : Nat := (v % 18446744073709551616).toNat

/-- Conversion of a signed value to a tape cell. -/
def to_cell (v : Int) : Nat := (v % 256).toNat

/-- The variables of the executor: `iptr`, `dptr`, `tape`, what is left of standard
input and what has been written to standard output. -/
structure State where
  iptr : Nat
  dptr : Nat
  tape : Nat → Nat
  input : List Nat
  output : List Nat

/-- Assignment `tape[d] = v`. -/
def tape_set (tape : Nat → Nat) (d v : Nat) : Nat → Nat :=
  fun k => if k = d then v else tape k

/-- The `switch` of the executor loop on instruction `x`, without the `iptr++` of the
`for` statement.  Any access `tape[dptr]` outside the array is undefined (`none`).
`getchar` yields the next byte, or `EOF = -1` on an exhausted input. -/
def exec_switch (x : ins) (s : State) : Option State :=
  match x.com with
  | .IncDptr | .DecDptr =>
    some ⟨s.iptr, to_size_t ((s.dptr : Int) + x.data), s.tape, s.input, s.output⟩
  | .IncCell | .DecCell =>
    if s.dptr < TAPE_SIZE then
      some ⟨s.iptr, s.dptr,
        tape_set s.tape s.dptr (to_cell ((s.tape s.dptr : Int) + x.data)), s.input, s.output⟩
    else none
  | .OutCell =>
    if s.dptr < TAPE_SIZE then
      some ⟨s.iptr, s.dptr, s.tape, s.input, s.output ++ [s.tape s.dptr % 256]⟩
    else none
  | .InpCell =>
    if s.dptr < TAPE_SIZE then
      match s.input with
      | [] => some ⟨s.iptr, s.dptr, tape_set s.tape s.dptr (to_cell (-1)), [], s.output⟩
      | b :: rest =>
        some ⟨s.iptr, s.dptr, tape_set s.tape s.dptr (to_cell (b % 256 : Nat)), rest, s.output⟩
    else none
  | .JumpFwd =>
    if s.dptr < TAPE_SIZE then
      if s.tape s.dptr = 0 then some ⟨to_size_t x.data, s.dptr, s.tape, s.input, s.output⟩
      else some s
    else none
  | .JumpBwd =>
    if s.dptr < TAPE_SIZE then
      if s.tape s.dptr ≠ 0 then some ⟨to_size_t x.data, s.dptr, s.tape, s.input, s.output⟩
      else some s
    else none

/-- One full iteration of the executor loop on instruction `x`: the `switch`, then the
`iptr++` of the `for` statement. -/
def exec_step (x : ins) (s : State) : Option State :=
  (exec_switch x s).map fun t =>
    ⟨(t.iptr + 1) % 18446744073709551616, t.dptr, t.tape, t.input, t.output⟩

/-- How a bounded run of the executor loop ends. -/
inductive Outcome where
  | halted (s : State)
  | undefined
  | running (s : State)

/-- The executor loop, for at most `fuel` iterations: it stops (`halted`) as soon as
`iptr < program.size()` fails. -/
def exec_loop (program : List ins) : Nat → State → Outcome
  | 0, s => if s.iptr < program.length then .running s else .halted s
  | fuel + 1, s =>
    match program[s.iptr]? with
    | none => .halted s
    | some x =>
      match exec_step x s with
      | none => .undefined
      | some t => exec_loop program fuel t

/-- The state at the start of the executor loop: `iptr = 0`, `dptr = 0`, a zeroed tape. -/
def initial (stdin : List Nat) : State := ⟨0, 0, fun _ => 0, stdin, []⟩

/-- The run of `main` on a source and a standard input: `compile`, then the executor
loop from the initial state. -/
def main (source : List Char) (stdin : List Nat) (fuel : Nat) : Outcome :=
  match compile source with
  | none => .undefined
  | some program => exec_loop program fuel (initial stdin)

/-! ## Specification-side and auxiliary definitions -/

/-- The four commands the second `switch` of `optimise` can bump. -/
def mergeable (c : com) : Bool :=
  match c with
  | .IncDptr | .DecDptr | .IncCell | .DecCell => true
  | _ => false

/-- The unit magnitude of a command: `+1`, `-1`, or `0` for input, output and jumps. -/
def unit_of (c : com) : Int :=
  match c with
  | .IncDptr | .IncCell => 1
  | .DecDptr | .DecCell => -1
  | _ => 0

/-- The loop of `optimise` seen from the front: `last` is the last instruction of
`result`, the list is what is left of `program`. -/
def absorb (last : ins) : List ins → List ins
  | [] => [last]
  | i :: rest =>
    if mergeable i.com = true ∧ last.com = i.com then
      absorb ⟨last.com, last.data + unit_of i.com⟩ rest
    else last :: absorb i rest

/-- The result of `optimise` as a function. -/
def squash : List ins → List ins
  | [] => []
  | i :: rest => absorb i rest

/-- Two adjacent instructions that `optimise` merges: the second carries one of the four
mergeable commands and the first carries the same command. -/
def merges (a b : ins) : Prop := mergeable b.com = true ∧ a.com = b.com

instance (a b : ins) : Decidable (merges a b) :=
  inferInstanceAs (Decidable (mergeable b.com = true ∧ a.com = b.com))

/-- Specification of run-length coalescing: each maximal run of one and the same
mergeable command becomes one instruction of that command whose data is `+n` or `-n`
for a run of length `n`; every other instruction stays. -/
def coalesce_runs : List ins → List ins
  | [] => []
  | x :: xs =>
    if mergeable x.com then
      ⟨x.com, unit_of x.com * ((xs.takeWhile fun y => y.com = x.com).length + 1 : Nat)⟩ ::
        coalesce_runs (xs.dropWhile fun y => y.com = x.com)
    else x :: coalesce_runs xs
termination_by l => l.length
decreasing_by
  · simp only [List.length_cons]
    exact Nat.lt_succ_of_le ((List.dropWhile_sublist _).length_le)
  · simp

/-- The instruction a source byte stands for, in the words of the specification. -/
def instruction_of (ch : Char) : Option ins :=
  if ch = '>' then some ⟨.IncDptr, 1⟩
  else if ch = '+' then some ⟨.IncCell, 1⟩
  else if ch = '<' then some ⟨.DecDptr, -1⟩
  else if ch = '-' then some ⟨.DecCell, -1⟩
  else if ch = '.' then some ⟨.OutCell, 0⟩
  else if ch = ',' then some ⟨.InpCell, 0⟩
  else if ch = '[' then some ⟨.JumpFwd, 0⟩
  else if ch = ']' then some ⟨.JumpBwd, 0⟩
  else none

/-- The eight recognised characters. -/
def recognised (ch : Char) : Bool :=
  ch ∈ ['>', '<', '+', '-', '.', ',', '[', ']']

/-- The six instruction kinds of the specification's data model. -/
inductive kind where
  | MovePointer
  | AddToCell
  | Output
  | Input
  | JumpIfZero
  | JumpIfNonZero
  deriving DecidableEq, Repr

/-- The kind the specification gives to each command: `>` and `<` are pointer moves,
`+` and `-` are cell additions. -/
def kind_of (c : com) : kind :=
  match c with
  | .IncDptr | .DecDptr => .MovePointer
  | .IncCell | .DecCell => .AddToCell
  | .OutCell => .Output
  | .InpCell => .Input
  | .JumpFwd => .JumpIfZero
  | .JumpBwd => .JumpIfNonZero

/-- Two instructions share a mergeable kind, in the sense of the specification: both
are pointer moves or both are cell additions. -/
def shares_mergeable_kind (a b : ins) : Prop :=
  kind_of a.com = kind_of b.com ∧
    (kind_of a.com = kind.MovePointer ∨ kind_of a.com = kind.AddToCell)

instance (a b : ins) : Decidable (shares_mergeable_kind a b) :=
  inferInstanceAs (Decidable (kind_of a.com = kind_of b.com ∧
    (kind_of a.com = kind.MovePointer ∨ kind_of a.com = kind.AddToCell)))

/-- The four commands that the first `switch` of `optimise` copies through. -/
def passes_through (c : com) : Bool :=
  match c with
  | .OutCell | .InpCell | .JumpFwd | .JumpBwd => true
  | _ => false

/-- Number of increment instructions (`>` or `+`) of a program. -/
def increments (p : List ins) : Nat :=
  p.countP fun x => x.com = com.IncDptr ∨ x.com = com.IncCell

/-- Number of decrement instructions (`<` or `-`) of a program. -/
def decrements (p : List ins) : Nat :=
  p.countP fun x => x.com = com.DecDptr ∨ x.com = com.DecCell

/-- Scan of a sequence of commands with opening bracket `o` and closing bracket `c`,
starting at depth `d`: the depth at the end, or `none` if a closing bracket is met at
depth `0`. -/
def bracket_scan (o c : com) : Nat → List com → Option Nat
  | d, [] => some d
  | d, x :: xs =>
    if x = o then bracket_scan o c (d + 1) xs
    else if x = c then
      match d with
      | 0 => none
      | d + 1 => bracket_scan o c d xs
    else bracket_scan o c d xs

/-- A program whose `[` and `]` are properly nested and balanced. -/
def balanced (p : List ins) : Prop :=
  bracket_scan .JumpFwd .JumpBwd 0 (p.map ins.com) = some 0

instance (p : List ins) : Decidable (balanced p) :=
  inferInstanceAs (Decidable (bracket_scan .JumpFwd .JumpBwd 0 (p.map ins.com) = some 0))

/-- Positions `i < j` hold an opening bracket and the closing bracket that matches it:
what lies strictly between them is balanced. -/
def bracket_pair (o c : com) (cs : List com) (i j : Nat) : Prop :=
  ∃ u b v, cs = u ++ o :: (b ++ c :: v) ∧ bracket_scan o c 0 b = some 0 ∧
    u.length = i ∧ j = i + 1 + b.length

/-- In program `p`, `i` holds a `[` and `j` the `]` that syntactically matches it. -/
def matching (p : List ins) (i j : Nat) : Prop :=
  bracket_pair .JumpFwd .JumpBwd (p.map ins.com) i j

/-- A bracket-matching pass in list form: the list holds the instructions in the order
the pass visits them, `ix r` is the index of an instruction that has `r` instructions
after it in that order, `o` is pushed and `c` is patched with the top of the stack. -/
def pass_list (o c : com) (ix : Nat → Nat) : List Nat → List ins → Option (List ins × List Nat)
  | st, [] => some ([], st)
  | st, x :: xs =>
    if x.com = o then
      (pass_list o c ix (ix xs.length :: st) xs).map fun r => (x :: r.1, r.2)
    else if x.com = c then
      match st with
      | [] => none
      | top :: rest =>
        (pass_list o c ix rest xs).map fun r => (⟨x.com, (top : Int)⟩ :: r.1, r.2)
    else (pass_list o c ix st xs).map fun r => (x :: r.1, r.2)

/-- The stack of a pass after the commands `cs` of a list of `n` instructions: it holds
the indices of the opening brackets of `cs` that are still unmatched, innermost first,
and what follows each of them is balanced. -/
inductive pass_inv (o c : com) (ix : Nat → Nat) (n : Nat) : List com → List Nat → Prop
  | base (b : List com) : bracket_scan o c 0 b = some 0 → pass_inv o c ix n b []
  | push (u : List com) (st : List Nat) (b : List com) :
      pass_inv o c ix n u st → bracket_scan o c 0 b = some 0 →
      pass_inv o c ix n (u ++ o :: b) (ix (n - 1 - u.length) :: st)

/-- From state `s` the executor loop on `program` performs `m` iterations and is then in
state `t`: a run with more fuel continues from `t`, a run with less fuel has not halted. -/
def reaches (program : List ins) (s : State) (m : Nat) (t : State) : Prop :=
  (∀ fuel, exec_loop program (fuel + m) s = exec_loop program fuel t) ∧
    ∀ fuel, fuel < m → ∀ r, exec_loop program fuel s ≠ .halted r

/-- From state `s` the executor loop on `program` never halts, whatever the fuel. -/
def never_halts (program : List ins) (s : State) : Prop :=
  ∀ fuel r, exec_loop program fuel s ≠ .halted r

/-- The state of the run of the unoptimised program that corresponds to state `s` of the
run of the optimised program: `f` maps an index of the optimised program to the index
where the corresponding run starts in the unoptimised program. -/
def lift_state (f : Nat → Nat) (s : State) : State :=
  ⟨f s.iptr, s.dptr, s.tape, s.input, s.output⟩

/-- Program `Q` is program `P` with runs folded, `f k` being the index in `P` of the run
folded into `Q[k]`: a mergeable instruction of `Q` of data `±(m + 1)` stands for `m + 1`
unit instructions of `P`, any other instruction stands for itself, and jump operands
correspond through `f`. -/
structure aligned (P Q : List ins) (f : Nat → Nat) : Prop where
  start : f 0 = 0
  finish : f Q.length = P.length
  le : ∀ k, k ≤ Q.length → f k ≤ P.length
  bound : P.length < 18446744073709551616
  qbound : Q.length < 18446744073709551616
  merged : ∀ k x, Q[k]? = some x → mergeable x.com = true →
    ∃ m : Nat, x.data = unit_of x.com * ((m + 1 : Nat) : Int) ∧ f (k + 1) = f k + (m + 1) ∧
      ∀ t, t < m + 1 → P[f k + t]? = some ⟨x.com, unit_of x.com⟩
  io : ∀ k x, Q[k]? = some x → (x.com = .OutCell ∨ x.com = .InpCell) →
    P[f k]? = some x ∧ f (k + 1) = f k + 1
  jump : ∀ k x, Q[k]? = some x → (x.com = .JumpFwd ∨ x.com = .JumpBwd) →
    ∃ j : Nat, x.data = (j : Int) ∧ j < Q.length ∧ P[f k]? = some ⟨x.com, (f j : Int)⟩ ∧
      f (k + 1) = f k + 1 ∧ f (j + 1) = f j + 1

/-- The unit instructions a single instruction of an optimised program stands for. -/
def expand (x : ins) : List ins :=
  if mergeable x.com = true then List.replicate x.data.natAbs ⟨x.com, unit_of x.com⟩ else [x]

/-- The unoptimised program an optimised program stands for. -/
def expand_all : List ins → List ins
  | [] => []
  | x :: xs => expand x ++ expand_all xs

/-- Index, in the unoptimised program, of the run folded into instruction `k` of the
optimised program `O`. -/
def run_start (O : List ins) (k : Nat) : Nat := (expand_all (O.take k)).length

/-- The indices of the instructions that the executor loop executes, in order, for at
most `fuel` iterations: the instrumented form of `exec_loop`. -/
def exec_trace (program : List ins) : Nat → State → List Nat
  | 0, _ => []
  | fuel + 1, s =>
    match program[s.iptr]? with
    | none => []
    | some x =>
      match exec_step x s with
      | none => [s.iptr]
      | some t => s.iptr :: exec_trace program fuel t

/-- How many times a run with trace `tr` has executed a `DecCell` instruction of
`program`. -/
def dec_cell_runs (program : List ins) (tr : List Nat) : Nat :=
  tr.countP fun k => decide ((program[k]?).map ins.com = some com.DecCell)

/-! ## `translate` and `optimise`: lemmas -/

theorem optimise_body_snoc (pre : List ins) (last i : ins) :
    optimise_body (pre ++ [last]) i =
      some (if mergeable i.com = true ∧ last.com = i.com then
        pre ++ [⟨last.com, last.data + unit_of i.com⟩] else pre ++ [last] ++ [i]) := by
  obtain ⟨c, d⟩ := i
  obtain ⟨lc, ld⟩ := last
  cases c <;> cases lc <;>
    simp [optimise_body, mergeable, unit_of, List.getLast?_append, List.dropLast_concat,
      Int.sub_eq_add_neg]

theorem foldlM_optimise_body (rest : List ins) (pre : List ins) (last : ins) :
    rest.foldlM optimise_body (pre ++ [last]) = some (pre ++ absorb last rest) := by
  induction rest generalizing pre last with
  | nil => simp [absorb]
  | cons i rest ih =>
    rw [List.foldlM_cons, optimise_body_snoc]
    by_cases h : mergeable i.com = true ∧ last.com = i.com
    · simp only [h, and_self, if_true, absorb, Option.some_bind, Option.bind_eq_bind]
      exact ih pre _
    · simp only [h, if_false, absorb, Option.some_bind, Option.bind_eq_bind]
      rw [ih (pre ++ [last]) i]
      simp

theorem optimise_body_nil (i : ins) : optimise_body [] i = some [i] := by
  obtain ⟨c, d⟩ := i
  cases c <;> simp [optimise_body]

theorem optimise_eq (p : List ins) : optimise p = some (squash p) := by
  cases p with
  | nil => simp [optimise, squash]
  | cons i rest =>
    have h := foldlM_optimise_body rest [] i
    simp only [List.nil_append] at h
    simp [optimise, squash, List.foldlM_cons, optimise_body_nil, h]

theorem absorb_length_le (rest : List ins) (last : ins) :
    (absorb last rest).length ≤ rest.length + 1 := by
  induction rest generalizing last with
  | nil => simp [absorb]
  | cons i rest ih =>
    simp only [absorb]
    split
    · exact Nat.le_succ_of_le (ih _)
    · simpa using ih i

theorem squash_length_le (p : List ins) : (squash p).length ≤ p.length := by
  cases p with
  | nil => simp [squash]
  | cons i rest => simpa [squash] using absorb_length_le rest i

theorem absorb_length_eq_iff (rest : List ins) (last : ins) :
    (absorb last rest).length = rest.length + 1 ↔
      List.Chain (fun a b => ¬ merges a b) last rest := by
  induction rest generalizing last with
  | nil => simp [absorb]
  | cons i rest ih =>
    simp only [absorb, List.chain_cons]
    by_cases h : mergeable i.com = true ∧ last.com = i.com
    · have hle := absorb_length_le rest ⟨last.com, last.data + unit_of i.com⟩
      have hm : merges last i := h
      rw [if_pos h]
      simp only [List.length_cons]
      constructor
      · intro h1; omega
      · intro h1; exact absurd hm h1.1
    · have hm : ¬ merges last i := h
      rw [if_neg h]
      simp only [List.length_cons, Nat.add_right_cancel_iff, ih i, hm,
        not_false_eq_true, true_and]

theorem squash_length_eq_iff (p : List ins) :
    (squash p).length = p.length ↔ List.Chain' (fun a b => ¬ merges a b) p := by
  cases p with
  | nil => simp [squash]
  | cons i rest => simpa [squash, List.Chain'] using absorb_length_eq_iff rest i

theorem absorb_filter (rest : List ins) (last : ins) :
    (absorb last rest).filter (fun x => !mergeable x.com) =
      (last :: rest).filter (fun x => !mergeable x.com) := by
  induction rest generalizing last with
  | nil => simp [absorb]
  | cons i rest ih =>
    simp only [absorb]
    split
    · next h =>
      have h1 : mergeable last.com = true := by rw [h.2]; exact h.1
      rw [ih]
      simp [List.filter_cons, h.1, h1]
    · simp only [List.filter_cons, ih i]

theorem squash_filter (p : List ins) :
    (squash p).filter (fun x => !mergeable x.com) = p.filter (fun x => !mergeable x.com) := by
  cases p with
  | nil => simp [squash]
  | cons i rest => simpa [squash] using absorb_filter rest i

theorem absorb_head (rest : List ins) (last : ins) :
    ∃ d t, absorb last rest = ⟨last.com, d⟩ :: t := by
  induction rest generalizing last with
  | nil => exact ⟨last.data, [], rfl⟩
  | cons i rest ih =>
    simp only [absorb]
    split
    · exact ih _
    · exact ⟨last.data, _, rfl⟩

theorem absorb_chain (rest : List ins) (last : ins) :
    List.Chain' (fun a b => ¬ merges a b) (absorb last rest) := by
  induction rest generalizing last with
  | nil => simp [absorb]
  | cons i rest ih =>
    simp only [absorb]
    split
    · exact ih _
    · next h =>
      obtain ⟨d, t, ht⟩ := absorb_head rest i
      have := ih i
      rw [ht] at this ⊢
      exact List.Chain'.cons (by simpa [merges] using h) this

theorem squash_chain (p : List ins) : List.Chain' (fun a b => ¬ merges a b) (squash p) := by
  cases p with
  | nil => simp [squash]
  | cons i rest => exact absorb_chain rest i

theorem absorb_of_chain (rest : List ins) (last : ins)
    (h : List.Chain (fun a b => ¬ merges a b) last rest) : absorb last rest = last :: rest := by
  induction rest generalizing last with
  | nil => simp [absorb]
  | cons i rest ih =>
    rw [List.chain_cons] at h
    have h1 : ¬ (mergeable i.com = true ∧ last.com = i.com) := h.1
    simp only [absorb, h1, if_false, ih i h.2]

theorem squash_of_chain (p : List ins) (h : List.Chain' (fun a b => ¬ merges a b) p) :
    squash p = p := by
  cases p with
  | nil => simp [squash]
  | cons i rest => exact absorb_of_chain rest i h

theorem squash_idem (p : List ins) : squash (squash p) = squash p :=
  squash_of_chain _ (squash_chain p)

theorem translate_body_eq (program : List ins) (ch : Char) :
    translate_body program ch = program ++ (instruction_of ch).toList := by
  unfold translate_body instruction_of
  split <;> simp_all

theorem foldl_translate_body (source : List Char) (program : List ins) :
    source.foldl translate_body program = program ++ source.filterMap instruction_of := by
  induction source generalizing program with
  | nil => simp
  | cons ch rest ih =>
    rw [List.foldl_cons, ih, translate_body_eq]
    cases h : instruction_of ch <;> simp [List.filterMap_cons, h]

theorem instruction_of_isSome (ch : Char) : (instruction_of ch).isSome = recognised ch := by
  unfold instruction_of recognised
  split_ifs <;> simp_all

theorem translate_eq (source : List Char) :
    translate source = source.filterMap instruction_of := by
  simpa [translate] using foldl_translate_body source []

theorem translate_append (s t : List Char) :
    translate (s ++ t) = translate s ++ translate t := by
  simp [translate_eq, List.filterMap_append]

theorem translate_unit (source : List Char) :
    ∀ x ∈ translate source, x.data = unit_of x.com := by
  intro x hx
  rw [translate_eq, List.mem_filterMap] at hx
  obtain ⟨ch, -, h⟩ := hx
  unfold instruction_of at h
  split_ifs at h <;> simp at h <;> subst h <;> rfl

theorem absorb_run (rest : List ins) (last : ins) (hm : mergeable last.com = true) :
    absorb last rest =
      ⟨last.com, last.data +
          unit_of last.com * ((rest.takeWhile fun y => y.com = last.com).length : Nat)⟩ ::
        squash (rest.dropWhile fun y => y.com = last.com) := by
  induction rest generalizing last with
  | nil => simp [absorb, squash]
  | cons i rest ih =>
    by_cases h : i.com = last.com
    · have hc : mergeable i.com = true ∧ last.com = i.com := ⟨h ▸ hm, h.symm⟩
      rw [absorb, if_pos hc, ih ⟨last.com, last.data + unit_of i.com⟩ hm]
      simp only [List.takeWhile_cons, List.dropWhile_cons, h, decide_True, if_true,
        List.length_cons, Nat.cast_succ]
      congr 2
      ring
    · have hc : ¬ (mergeable i.com = true ∧ last.com = i.com) := fun hc => h hc.2.symm
      rw [absorb, if_neg hc]
      simp [List.takeWhile_cons, List.dropWhile_cons, h, squash]

theorem absorb_other (rest : List ins) (last : ins) (hm : mergeable last.com = false) :
    absorb last rest = last :: squash rest := by
  cases rest with
  | nil => simp [absorb, squash]
  | cons i rest =>
    have hc : ¬ (mergeable i.com = true ∧ last.com = i.com) := by
      rintro ⟨h1, h2⟩
      rw [h2, h1] at hm
      exact Bool.noConfusion hm
    rw [absorb, if_neg hc, squash]

theorem squash_eq_coalesce_runs (n : Nat) (p : List ins) (hn : p.length ≤ n)
    (hu : ∀ x ∈ p, x.data = unit_of x.com) : squash p = coalesce_runs p := by
  induction n generalizing p with
  | zero =>
    have : p = [] := List.length_eq_zero.mp (Nat.le_zero.mp hn)
    subst this
    simp [squash, coalesce_runs]
  | succ n ih =>
    cases p with
    | nil => simp [squash, coalesce_runs]
    | cons x xs =>
      have hxs : ∀ y ∈ xs, y.data = unit_of y.com := fun y hy => hu y (List.mem_cons_of_mem _ hy)
      have hlen : xs.length ≤ n := by simpa using hn
      rw [coalesce_runs, squash]
      cases hm : mergeable x.com with
      | true =>
        rw [absorb_run xs x hm, if_pos rfl]
        have hd : ((xs.dropWhile fun y => y.com = x.com)).length ≤ n :=
          le_trans (List.dropWhile_sublist _).length_le hlen
        have hdu : ∀ y ∈ (xs.dropWhile fun y => y.com = x.com), y.data = unit_of y.com :=
          fun y hy => hxs y ((List.dropWhile_sublist _).subset hy)
        rw [ih _ hd hdu, hu x (List.mem_cons_self _ _)]
        congr 2
        push_cast
        ring
      | false =>
        rw [absorb_other xs x hm, ih xs hlen hxs]
        simp

theorem length_filterMap_instruction_of (source : List Char) :
    (source.filterMap instruction_of).length = source.countP recognised := by
  induction source with
  | nil => simp
  | cons ch rest ih =>
    have h := instruction_of_isSome ch
    cases hi : instruction_of ch with
    | none =>
      rw [hi] at h
      simp [List.filterMap_cons, hi, List.countP_cons, ← h, ih]
    | some x =>
      rw [hi] at h
      simp [List.filterMap_cons, hi, List.countP_cons, ← h, ih]

theorem passes_through_eq (c : com) : passes_through c = !mergeable c := by
  cases c <;> rfl

theorem getLastD_com (a : List ins) (x y : ins) (h : x.com = y.com) :
    (a.getLastD x).com = (a.getLastD y).com := by
  cases a with
  | nil => simpa using h
  | cons z a => simp [List.getLastD_cons, List.getLast?_cons]

theorem absorb_append (a b : List ins) (l : ins)
    (h : ∀ y ∈ b.head?, ¬ (mergeable y.com = true ∧ (a.getLastD l).com = y.com)) :
    absorb l (a ++ b) = absorb l a ++ squash b := by
  induction a generalizing l with
  | nil =>
    cases b with
    | nil => simp [absorb, squash]
    | cons y b =>
      have hy := h y (by simp)
      simp only [List.getLastD_nil] at hy
      simp [absorb, squash, hy]
  | cons i a ih =>
    simp only [List.getLastD_cons] at h
    rw [List.cons_append, absorb, absorb]
    split
    · next hc =>
      refine ih _ fun y hy => ?_
      rw [getLastD_com a ⟨l.com, l.data + unit_of i.com⟩ i hc.2]
      exact h y hy
    · rw [ih i h]; rfl

theorem squash_append (a b : List ins)
    (h : ∀ x ∈ a.getLast?, ∀ y ∈ b.head?, ¬ merges x y) :
    squash (a ++ b) = squash a ++ squash b := by
  cases a with
  | nil => simp [squash]
  | cons l a =>
    simp only [List.cons_append, squash]
    refine absorb_append a b l fun y hy => ?_
    exact h (a.getLastD l) (by simp [List.getLast?_cons]) y hy

theorem absorb_sum (rest : List ins) (l : ins) (hu : ∀ y ∈ rest, y.data = unit_of y.com) :
    ((absorb l rest).map ins.data).sum = l.data + (rest.map ins.data).sum := by
  induction rest generalizing l with
  | nil => simp [absorb]
  | cons i rest ih =>
    have hr : ∀ y ∈ rest, y.data = unit_of y.com := fun y hy => hu y (List.mem_cons_of_mem _ hy)
    have hi := hu i (List.mem_cons_self _ _)
    simp only [absorb]
    split
    · rw [ih _ hr]; simp only [List.map_cons, List.sum_cons, hi]; ring
    · simp only [List.map_cons, List.sum_cons, ih i hr]

theorem squash_sum (p : List ins) (hu : ∀ y ∈ p, y.data = unit_of y.com) :
    ((squash p).map ins.data).sum = (p.map ins.data).sum := by
  cases p with
  | nil => simp [squash]
  | cons i rest =>
    simpa [squash] using absorb_sum rest i fun y hy => hu y (List.mem_cons_of_mem _ hy)

theorem units_sum (p : List ins) (hu : ∀ y ∈ p, y.data = unit_of y.com) :
    (p.map ins.data).sum = (increments p : Int) - (decrements p : Int) := by
  induction p with
  | nil => simp [increments, decrements]
  | cons x p ih =>
    have hx := hu x (List.mem_cons_self _ _)
    have hp := ih fun y hy => hu y (List.mem_cons_of_mem _ hy)
    obtain ⟨c, d⟩ := x
    simp only [increments, decrements] at hp ⊢
    simp only at hx
    cases c <;>
      simp [List.countP_cons, hx, hp, unit_of] <;> ring

theorem absorb_sign (rest : List ins) (l : ins) (hu : ∀ y ∈ rest, y.data = unit_of y.com)
    (hl : mergeable l.com = true → 0 < l.data * unit_of l.com) :
    ∀ x ∈ absorb l rest, mergeable x.com = true → 0 < x.data * unit_of x.com := by
  induction rest generalizing l with
  | nil => simpa [absorb] using hl
  | cons i rest ih =>
    have hr : ∀ y ∈ rest, y.data = unit_of y.com := fun y hy => hu y (List.mem_cons_of_mem _ hy)
    have hi := hu i (List.mem_cons_self _ _)
    simp only [absorb]
    split
    · next hc =>
      refine ih _ hr fun hm => ?_
      have h1 := hl hm
      have h2 : unit_of l.com * unit_of l.com = 1 := by
        revert hm; cases l.com <;> simp [mergeable, unit_of]
      simp only [← hc.2] at h1 ⊢
      nlinarith
    · intro x hx
      rcases List.mem_cons.mp hx with rfl | hx
      · exact hl
      · refine ih i hr (fun hm => ?_) x hx
        have h2 : unit_of i.com * unit_of i.com = 1 := by
          revert hm; cases i.com <;> simp [mergeable, unit_of]
        rw [hi, h2]; exact Int.one_pos

theorem squash_sign (p : List ins) (hu : ∀ y ∈ p, y.data = unit_of y.com) :
    ∀ x ∈ squash p, mergeable x.com = true → 0 < x.data * unit_of x.com := by
  cases p with
  | nil => simp [squash]
  | cons i rest =>
    refine absorb_sign rest i (fun y hy => hu y (List.mem_cons_of_mem _ hy)) fun hm => ?_
    have h2 : unit_of i.com * unit_of i.com = 1 := by
      revert hm; cases i.com <;> simp [mergeable, unit_of]
    rw [hu i (List.mem_cons_self _ _), h2]; exact Int.one_pos

theorem absorb_mem_com (rest : List ins) (l : ins) :
    ∀ x ∈ absorb l rest, ∃ y ∈ l :: rest, y.com = x.com := by
  induction rest generalizing l with
  | nil => simp [absorb]
  | cons i rest ih =>
    simp only [absorb]
    split
    · intro x hx
      obtain ⟨y, hy, hyx⟩ := ih _ x hx
      rcases List.mem_cons.mp hy with rfl | hy
      · exact ⟨l, by simp, hyx⟩
      · exact ⟨y, by simp [hy], hyx⟩
    · intro x hx
      rcases List.mem_cons.mp hx with rfl | hx
      · exact ⟨x, by simp, rfl⟩
      · obtain ⟨y, hy, hyx⟩ := ih i x hx
        exact ⟨y, List.mem_cons_of_mem _ hy, hyx⟩

theorem squash_mem_com (p : List ins) : ∀ x ∈ squash p, ∃ y ∈ p, y.com = x.com := by
  cases p with
  | nil => simp [squash]
  | cons i rest => exact absorb_mem_com rest i

theorem kind_ne_not_merges (x y : ins) (h : kind_of x.com ≠ kind_of y.com) : ¬ merges x y := by
  rintro ⟨-, hc⟩
  exact h (by rw [hc])

/-! ## Bracket matching: lemmas on `annotate` -/

theorem bracket_scan_append (o c : com) (a b : List com) (d : Nat) :
    bracket_scan o c d (a ++ b) = (bracket_scan o c d a).bind fun e => bracket_scan o c e b := by
  induction a generalizing d with
  | nil => simp [bracket_scan]
  | cons x a ih =>
    simp only [List.cons_append, bracket_scan]
    split
    · exact ih _
    · split
      · cases d with
        | zero => simp
        | succ d => exact ih _
      · exact ih _

theorem bracket_scan_shift (o c : com) (a : List com) (d e k : Nat)
    (h : bracket_scan o c d a = some e) : bracket_scan o c (d + k) a = some (e + k) := by
  induction a generalizing d with
  | nil =>
    simp only [bracket_scan, Option.some.injEq] at h ⊢
    omega
  | cons x a ih =>
    simp only [bracket_scan] at h ⊢
    split
    · next hx =>
      rw [if_pos hx] at h
      have := ih _ h
      rwa [Nat.add_right_comm] at this
    · next hx =>
      rw [if_neg hx] at h
      split
      · next hc =>
        rw [if_pos hc] at h
        cases d with
        | zero => simp at h
        | succ d =>
          have := ih _ h
          rw [Nat.add_right_comm]
          exact this
      · next hc =>
        rw [if_neg hc] at h
        exact ih _ h

theorem bracket_scan_reverse (o c : com) (hoc : o ≠ c) (b : List com) (d e : Nat)
    (h : bracket_scan c o d b = some e) : bracket_scan o c e b.reverse = some d := by
  induction b generalizing d with
  | nil =>
    simp only [bracket_scan, Option.some.injEq] at h
    simp [bracket_scan, h]
  | cons x b ih =>
    simp only [bracket_scan] at h
    rw [List.reverse_cons, bracket_scan_append]
    by_cases hx : x = c
    · rw [if_pos hx] at h
      rw [ih _ h]
      simp [bracket_scan, hx, hoc.symm]
    · rw [if_neg hx] at h
      by_cases hx2 : x = o
      · rw [if_pos hx2] at h
        cases d with
        | zero => simp at h
        | succ d =>
          rw [ih _ h]
          simp [bracket_scan, hx2]
      · rw [if_neg hx2] at h
        rw [ih _ h]
        simp [bracket_scan, hx, hx2]

theorem bracket_scan_close (o c : com) (hoc : o ≠ c) (v : List com) :
    bracket_scan o c 0 (c :: v) = none := by
  simp [bracket_scan, hoc.symm]

theorem bracket_pair_unique_right (o c : com) (hoc : o ≠ c) (cs : List com) (i j j2 : Nat)
    (h1 : bracket_pair o c cs i j) (h2 : bracket_pair o c cs i j2) : j = j2 := by
  obtain ⟨u, b, v, hcs, hb, hu, hj⟩ := h1
  obtain ⟨u2, b2, v2, hcs2, hb2, hu2, hj2⟩ := h2
  rw [hcs] at hcs2
  have hlen : u.length = u2.length := by omega
  obtain ⟨-, htl⟩ := List.append_inj hcs2 hlen
  simp only [List.cons.injEq, true_and] at htl
  rcases List.append_eq_append_iff.mp htl with ⟨a, ha, ha2⟩ | ⟨a, ha, ha2⟩
  · cases a with
    | nil => simp only [List.append_nil] at ha; subst ha; omega
    | cons y a =>
      simp only [List.cons_append, List.cons.injEq] at ha2
      rw [ha, bracket_scan_append, hb, ← ha2.1] at hb2
      simp [bracket_scan_close o c hoc] at hb2
  · cases a with
    | nil => simp only [List.append_nil] at ha; subst ha; omega
    | cons y a =>
      simp only [List.cons_append, List.cons.injEq] at ha2
      rw [ha, bracket_scan_append, hb2, ← ha2.1] at hb
      simp [bracket_scan_close o c hoc] at hb

theorem bracket_scan_open_suffix (o c : com) (a b : List com)
    (hb : bracket_scan o c 0 b = some 0) : bracket_scan o c 0 (a ++ o :: b) ≠ some 0 := by
  rw [bracket_scan_append]
  cases h : bracket_scan o c 0 a with
  | none => simp
  | some d =>
    have := bracket_scan_shift o c b 0 0 (d + 1) hb
    simp only [Nat.zero_add] at this
    simp [bracket_scan, this]

theorem bracket_pair_unique_left (o c : com) (cs : List com) (i i2 j : Nat)
    (h1 : bracket_pair o c cs i j) (h2 : bracket_pair o c cs i2 j) : i = i2 := by
  obtain ⟨u, b, v, hcs, hb, hu, hj⟩ := h1
  obtain ⟨u2, b2, v2, hcs2, hb2, hu2, hj2⟩ := h2
  rw [hcs] at hcs2
  have e1 : u ++ o :: (b ++ c :: v) = (u ++ o :: b) ++ c :: v := by simp
  have e2 : u2 ++ o :: (b2 ++ c :: v2) = (u2 ++ o :: b2) ++ c :: v2 := by simp
  rw [e1, e2] at hcs2
  have hlen : (u ++ o :: b).length = (u2 ++ o :: b2).length := by
    simp only [List.length_append, List.length_cons]; omega
  obtain ⟨hpre, -⟩ := List.append_inj hcs2 hlen
  rcases List.append_eq_append_iff.mp hpre with ⟨a, ha, ha2⟩ | ⟨a, ha, ha2⟩
  · cases a with
    | nil => simp only [List.append_nil] at ha; rw [← hu, ← hu2, ha]
    | cons y a =>
      simp only [List.cons_append, List.cons.injEq] at ha2
      rw [ha2.2] at hb
      exact absurd hb (bracket_scan_open_suffix o c a b2 hb2)
  · cases a with
    | nil => simp only [List.append_nil] at ha; rw [← hu, ← hu2, ha]
    | cons y a =>
      simp only [List.cons_append, List.cons.injEq] at ha2
      rw [ha2.2] at hb2
      exact absurd hb2 (bracket_scan_open_suffix o c a b hb)

theorem bracket_scan_snoc_other (o c x : com) (b : List com) (hxo : x ≠ o) (hxc : x ≠ c)
    (hb : bracket_scan o c 0 b = some 0) : bracket_scan o c 0 (b ++ [x]) = some 0 := by
  rw [bracket_scan_append, hb]
  simp [bracket_scan, hxo, hxc]

theorem bracket_scan_wrap (o c : com) (hoc : o ≠ c) (a b : List com)
    (ha : bracket_scan o c 0 a = some 0) (hb : bracket_scan o c 0 b = some 0) :
    bracket_scan o c 0 (a ++ o :: (b ++ [c])) = some 0 := by
  have h1 := bracket_scan_shift o c b 0 0 1 hb
  simp only [Nat.zero_add] at h1
  rw [bracket_scan_append, ha]
  simp only [Option.some_bind, bracket_scan, if_true]
  rw [bracket_scan_append, h1]
  simp [bracket_scan, hoc.symm]

theorem pass_inv_other (o c : com) (ix : Nat → Nat) (n : Nat) (cs : List com) (st : List Nat)
    (x : com) (hxo : x ≠ o) (hxc : x ≠ c) (h : pass_inv o c ix n cs st) :
    pass_inv o c ix n (cs ++ [x]) st := by
  cases h with
  | base _ hb => exact pass_inv.base _ (bracket_scan_snoc_other o c x cs hxo hxc hb)
  | push u st b hu hb =>
    have := pass_inv.push u st (b ++ [x]) hu (bracket_scan_snoc_other o c x b hxo hxc hb)
    simpa using this

theorem pass_inv_open (o c : com) (ix : Nat → Nat) (n : Nat) (cs : List com) (st : List Nat)
    (h : pass_inv o c ix n cs st) :
    pass_inv o c ix n (cs ++ [o]) (ix (n - 1 - cs.length) :: st) :=
  pass_inv.push cs st [] h rfl

theorem pass_inv_close (o c : com) (hoc : o ≠ c) (ix : Nat → Nat) (n : Nat) (cs : List com)
    (top : Nat) (st : List Nat) (h : pass_inv o c ix n cs (top :: st)) :
    pass_inv o c ix n (cs ++ [c]) st ∧
      ∃ u b, cs = u ++ o :: b ∧ bracket_scan o c 0 b = some 0 ∧ top = ix (n - 1 - u.length) := by
  cases h with
  | push u st b hu hb =>
    refine ⟨?_, u, b, rfl, hb, rfl⟩
    cases hu with
    | base _ hb0 =>
      have := @pass_inv.base o c ix n _ (bracket_scan_wrap o c hoc u b hb0 hb)
      simpa using this
    | push u1 st1 b1 hu1 hb1 =>
      have := pass_inv.push u1 st1 _ hu1 (bracket_scan_wrap o c hoc b1 b hb1 hb)
      simpa using this

theorem pass_list_spec (o c : com) (hoc : o ≠ c) (ix : Nat → Nat) (n : Nat) (xs : List ins) :
    ∀ (cs : List com) (st : List Nat), pass_inv o c ix n cs st → cs.length + xs.length = n →
      bracket_scan o c st.length (xs.map ins.com) ≠ none →
      ∃ ys st2, pass_list o c ix st xs = some (ys, st2) ∧ ys.map ins.com = xs.map ins.com ∧
        ∀ k y, ys[k]? = some y →
          (y.com = c → ∃ k2, y.data = ((ix (n - 1 - k2) : Nat) : Int) ∧
            bracket_pair o c (cs ++ xs.map ins.com) k2 (cs.length + k)) ∧
          (y.com ≠ c → xs[k]? = some y) := by
  induction xs with
  | nil =>
    intro cs st _ _ _
    exact ⟨[], st, rfl, rfl, by simp⟩
  | cons x xs ih =>
    intro cs st hinv hlen hscan
    obtain ⟨xc, xd⟩ := x
    simp only [List.length_cons] at hlen
    simp only [List.map_cons, bracket_scan] at hscan
    have hlen2 : (cs ++ [xc]).length + xs.length = n := by
      simp only [List.length_append, List.length_singleton]; omega
    have hix : n - 1 - cs.length = xs.length := by omega
    have tail : ∀ (ys : List ins) (y0 : ins),
        (∀ k y, ys[k]? = some y →
          (y.com = c → ∃ k2, y.data = ((ix (n - 1 - k2) : Nat) : Int) ∧
            bracket_pair o c (cs ++ [xc] ++ xs.map ins.com) k2 ((cs ++ [xc]).length + k)) ∧
          (y.com ≠ c → xs[k]? = some y)) →
        ∀ k y, (y0 :: ys)[k + 1]? = some y →
          (y.com = c → ∃ k2, y.data = ((ix (n - 1 - k2) : Nat) : Int) ∧
            bracket_pair o c (cs ++ (⟨xc, xd⟩ :: xs).map ins.com) k2 (cs.length + (k + 1))) ∧
          (y.com ≠ c → (⟨xc, xd⟩ :: xs)[k + 1]? = some y) := by
      intro ys y0 hel k y hy
      simp only [List.getElem?_cons_succ] at hy
      obtain ⟨h1, h2⟩ := hel k y hy
      refine ⟨fun h => ?_, fun h => by simpa using h2 h⟩
      obtain ⟨k2, hd, hp⟩ := h1 h
      refine ⟨k2, hd, ?_⟩
      have e1 : cs ++ [xc] ++ xs.map ins.com = cs ++ (⟨xc, xd⟩ :: xs).map ins.com := by simp
      have e2 : (cs ++ [xc]).length + k = cs.length + (k + 1) := by
        simp only [List.length_append, List.length_singleton]; omega
      rw [e1, e2] at hp
      exact hp
    by_cases hxo : xc = o
    · subst hxo
      rw [if_pos rfl] at hscan
      have hinv2 := pass_inv_open xc c ix n cs st hinv
      rw [hix] at hinv2
      obtain ⟨ys, st2, hrun, hcom, hel⟩ := ih (cs ++ [xc]) _ hinv2 hlen2 hscan
      refine ⟨⟨xc, xd⟩ :: ys, st2, ?_, ?_, ?_⟩
      · simp [pass_list, hrun]
      · simp [hcom]
      · intro k y hy
        cases k with
        | zero =>
          simp only [List.getElem?_cons_zero, Option.some.injEq] at hy
          subst hy
          exact ⟨fun h => absurd h hoc, fun _ => by simp⟩
        | succ k => exact tail ys _ hel k y hy
    · rw [if_neg hxo] at hscan
      by_cases hxc : xc = c
      · subst hxc
        rw [if_pos rfl] at hscan
        cases st with
        | nil => simp at hscan
        | cons top st =>
          simp only [List.length_cons] at hscan
          obtain ⟨hinv2, u, b, hcs, hb, htop⟩ := pass_inv_close o xc hoc ix n cs top st hinv
          obtain ⟨ys, st2, hrun, hcom, hel⟩ := ih (cs ++ [xc]) _ hinv2 hlen2 hscan
          refine ⟨⟨xc, (top : Int)⟩ :: ys, st2, ?_, ?_, ?_⟩
          · simp [pass_list, hxo, hrun]
          · simp [hcom]
          · intro k y hy
            cases k with
            | zero =>
              simp only [List.getElem?_cons_zero, Option.some.injEq] at hy
              subst hy
              refine ⟨fun _ => ⟨u.length, by simp [htop], ?_⟩, fun h => absurd rfl h⟩
              refine ⟨u, b, (xs.map ins.com), ?_, hb, rfl, ?_⟩
              · simp [hcs]
              · simp [hcs]; omega
            | succ k => exact tail ys _ hel k y hy
      · rw [if_neg hxc] at hscan
        have hinv2 := pass_inv_other o c ix n cs st xc hxo hxc hinv
        obtain ⟨ys, st2, hrun, hcom, hel⟩ := ih (cs ++ [xc]) _ hinv2 hlen2 hscan
        refine ⟨⟨xc, xd⟩ :: ys, st2, ?_, ?_, ?_⟩
        · simp [pass_list, hxo, hxc, hrun]
        · simp [hcom]
        · intro k y hy
          cases k with
          | zero =>
            simp only [List.getElem?_cons_zero, Option.some.injEq] at hy
            subst hy
            exact ⟨fun h => absurd h hxc, fun _ => by simp⟩
          | succ k => exact tail ys _ hel k y hy

theorem get?_append_cons (pre suf : List ins) (x : ins) :
    (pre ++ x :: suf).get? pre.length = some x := by
  rw [List.get?_eq_getElem?, List.getElem?_append_right (Nat.le_refl _)]
  simp

theorem set_append_cons (pre suf : List ins) (x y : ins) :
    (pre ++ x :: suf).set pre.length y = pre ++ y :: suf := by
  simp

theorem backward_bridge (n : Nat) (suf : List ins) :
    ∀ (pre : List ins) (st : List Nat), pre.length + suf.length = n →
      (List.range' pre.length suf.length).foldlM annotate_backward_body (pre ++ suf, st) =
        (pass_list .JumpFwd .JumpBwd (fun r => n - 1 - r) st suf).map
          fun r => (pre ++ r.1, r.2) := by
  induction suf with
  | nil => intro pre st _; simp [pass_list]
  | cons x xs ih =>
    intro pre st hlen
    simp only [List.length_cons] at hlen
    have hlen2 : (pre ++ [x]).length + xs.length = n := by
      simp only [List.length_append, List.length_singleton]; omega
    have hix : n - 1 - xs.length = pre.length := by omega
    have hstep : ∀ (y : ins) (st2 : List Nat),
        (List.range' (pre.length + 1) xs.length).foldlM annotate_backward_body
            (pre ++ y :: xs, st2) =
          (pass_list .JumpFwd .JumpBwd (fun r => n - 1 - r) st2 xs).map
            fun r => (pre ++ y :: r.1, r.2) := by
      intro y st2
      have hlen3 : (pre ++ [y]).length + xs.length = n := by
        simp only [List.length_append, List.length_singleton]; omega
      have := ih (pre ++ [y]) st2 hlen3
      simpa using this
    rw [List.length_cons, List.range'_succ, List.foldlM_cons]
    obtain ⟨xc, xd⟩ := x
    cases xc <;>
      simp only [annotate_backward_body, get?_append_cons, pass_list, Option.bind_eq_bind,
        Option.some_bind, hstep, if_true, if_false, reduceCtorEq, Option.map_map, hix] <;>
      try rfl
    cases st with
    | nil => rfl
    | cons top st =>
      simp only [set_append_cons, Option.some_bind, hstep, Option.map_map]
      rfl

theorem forward_bridge (rpre : List ins) :
    ∀ (suf : List ins) (st : List Nat),
      (List.range rpre.length).reverse.foldlM annotate_forward_body (rpre.reverse ++ suf, st) =
        (pass_list .JumpBwd .JumpFwd (fun r => r) st rpre).map
          fun r => (r.1.reverse ++ suf, r.2) := by
  induction rpre with
  | nil => intro suf st; simp [pass_list]
  | cons x xs ih =>
    intro suf st
    have hget : ((x :: xs).reverse ++ suf).get? xs.length = some x := by
      have := get?_append_cons xs.reverse suf x
      simp only [List.length_reverse] at this
      simp only [List.reverse_cons, List.append_assoc, List.singleton_append, this]
    have hset : ∀ y, ((x :: xs).reverse ++ suf).set xs.length y = xs.reverse ++ y :: suf := by
      intro y
      have := set_append_cons xs.reverse suf x y
      simp only [List.length_reverse] at this
      simp only [List.reverse_cons, List.append_assoc, List.singleton_append, this]
    have hprog : (x :: xs).reverse ++ suf = xs.reverse ++ x :: suf := by simp
    rw [List.length_cons, List.range_succ, List.reverse_append, List.reverse_singleton,
      List.singleton_append, List.foldlM_cons]
    obtain ⟨xc, xd⟩ := x
    cases xc <;>
      simp only [annotate_forward_body, hget, pass_list, Option.bind_eq_bind,
        Option.some_bind, if_true, if_false, reduceCtorEq, Option.map_map] <;>
      try (rw [hprog, ih]; simp [Function.comp_def])
    cases st with
    | nil => rfl
    | cons top st =>
      simp only [hset, Option.some_bind, Option.map_map]
      rw [ih]; simp [Function.comp_def]

theorem annotate_forward_eq (p : List ins) :
    annotate_forward p =
      (pass_list .JumpBwd .JumpFwd (fun r => r) [] p.reverse).map fun r => r.1.reverse := by
  have h := forward_bridge p.reverse [] []
  simp only [List.length_reverse, List.reverse_reverse, List.append_nil] at h
  rw [annotate_forward, h, Option.map_map]
  rfl

theorem annotate_backward_eq (p : List ins) :
    annotate_backward p =
      (pass_list .JumpFwd .JumpBwd (fun r => p.length - 1 - r) [] p).map fun r => r.1 := by
  have h := backward_bridge p.length p [] [] (by simp)
  simp only [List.length_nil, List.nil_append] at h
  rw [annotate_backward, List.range_eq_range', h, Option.map_map]
  rfl

theorem bracket_pair_bounds (o c : com) (cs : List com) (i j : Nat)
    (h : bracket_pair o c cs i j) :
    i < j ∧ j < cs.length ∧ cs[i]? = some o ∧ cs[j]? = some c ∧
      bracket_scan o c 0 ((cs.drop (i + 1)).take (j - i - 1)) = some 0 := by
  obtain ⟨u, b, v, hcs, hb, hu, hj⟩ := h
  subst hcs hu hj
  refine ⟨by omega, by simp; omega, ?_, ?_, ?_⟩
  · rw [List.getElem?_append_right (Nat.le_refl _)]; simp
  · have e : u ++ o :: (b ++ c :: v) = (u ++ o :: b) ++ c :: v := by simp
    rw [e, List.getElem?_append_right (by simp; omega)]
    simp
    have : u.length + 1 + b.length - (u.length + (b.length + 1)) = 0 := by omega
    simp [this]
  · have e : u ++ o :: (b ++ c :: v) = (u ++ [o]) ++ (b ++ c :: v) := by simp
    have e2 : u.length + 1 + b.length - u.length - 1 = b.length := by omega
    rw [e, List.drop_append_of_le_length (by simp), e2]
    simp [hb]

theorem bracket_pair_reverse (o c : com) (hoc : o ≠ c) (cs : List com) (k2 k : Nat)
    (h : bracket_pair c o cs k2 k) :
    bracket_pair o c cs.reverse (cs.length - 1 - k) (cs.length - 1 - k2) := by
  obtain ⟨u, b, v, hcs, hb, hu, hj⟩ := h
  subst hcs hu hj
  refine ⟨v.reverse, b.reverse, u.reverse, by simp, ?_, ?_, ?_⟩
  · exact bracket_scan_reverse o c hoc b 0 0 hb
  · simp; omega
  · simp; omega

theorem annotate_backward_spec (p : List ins) (hp : balanced p) :
    ∃ q, annotate_backward p = some q ∧ q.map ins.com = p.map ins.com ∧
      ∀ j y, q[j]? = some y →
        (y.com = .JumpBwd → ∃ i : Nat, y.data = (i : Int) ∧ matching p i j) ∧
        (y.com ≠ .JumpBwd → p[j]? = some y) := by
  obtain ⟨ys, st2, hrun, hcom, hel⟩ :=
    pass_list_spec .JumpFwd .JumpBwd (by decide) (fun r => p.length - 1 - r) p.length p [] []
      (pass_inv.base [] rfl) (by simp) (by rw [List.length_nil]; unfold balanced at hp; simp [hp])
  refine ⟨ys, by simp [annotate_backward_eq, hrun], hcom, fun j y hy => ?_⟩
  obtain ⟨h1, h2⟩ := hel j y hy
  refine ⟨fun h => ?_, h2⟩
  obtain ⟨k2, hd, hpair⟩ := h1 h
  simp only [List.nil_append, List.length_nil, Nat.zero_add] at hpair
  have hb := bracket_pair_bounds _ _ _ _ _ hpair
  have hlt : k2 < p.length := by
    have := hb.2.1
    simp only [List.length_map] at this
    omega
  refine ⟨k2, ?_, hpair⟩
  rw [hd]
  congr 1
  omega

theorem annotate_forward_spec (p : List ins) (hp : balanced p) :
    ∃ q, annotate_forward p = some q ∧ q.map ins.com = p.map ins.com ∧
      ∀ i y, q[i]? = some y →
        (y.com = .JumpFwd → ∃ j : Nat, y.data = (j : Int) ∧ matching p i j) ∧
        (y.com ≠ .JumpFwd → p[i]? = some y) := by
  have hrev : bracket_scan .JumpBwd .JumpFwd 0 (p.reverse.map ins.com) = some 0 := by
    rw [List.map_reverse]
    exact bracket_scan_reverse .JumpBwd .JumpFwd (by decide) _ 0 0 hp
  obtain ⟨ys, st2, hrun, hcom, hel⟩ :=
    pass_list_spec .JumpBwd .JumpFwd (by decide) (fun r => r) p.length p.reverse [] []
      (pass_inv.base [] rfl) (by simp) (by rw [List.length_nil, hrev]; simp)
  have hlen : ys.length = p.length := by
    have := congrArg List.length hcom
    simpa using this
  refine ⟨ys.reverse, by simp [annotate_forward_eq, hrun], ?_, fun i y hy => ?_⟩
  · rw [List.map_reverse, hcom, List.map_reverse, List.reverse_reverse]
  · have hi : i < ys.length := by
      have := (List.getElem?_eq_some_iff.mp hy).1
      simpa using this
    rw [List.getElem?_reverse hi] at hy
    obtain ⟨h1, h2⟩ := hel _ y hy
    refine ⟨fun h => ?_, fun h => ?_⟩
    · obtain ⟨k2, hd, hpair⟩ := h1 h
      simp only [List.nil_append, List.length_nil, Nat.zero_add] at hpair
      have hb := bracket_pair_bounds _ _ _ _ _ hpair
      have hr := bracket_pair_reverse .JumpFwd .JumpBwd (by decide) _ _ _ hpair
      simp only [List.map_reverse, List.reverse_reverse, List.length_reverse,
        List.length_map] at hr
      have e : p.length - 1 - (ys.length - 1 - i) = i := by omega
      rw [e] at hr
      exact ⟨_, hd, hr⟩
    · have := h2 h
      rw [List.getElem?_reverse (by omega)] at this
      have e : p.length - 1 - (ys.length - 1 - i) = i := by omega
      rwa [e] at this

theorem matching_congr (p q : List ins) (h : q.map ins.com = p.map ins.com) (i j : Nat) :
    matching q i j ↔ matching p i j := by
  unfold matching
  rw [h]

theorem annotate_spec (p : List ins) (hp : balanced p) :
    ∃ q, annotate p = some q ∧ q.map ins.com = p.map ins.com ∧
      ∀ k y, q[k]? = some y →
        (y.com = .JumpFwd → ∃ j : Nat, y.data = (j : Int) ∧ matching p k j) ∧
        (y.com = .JumpBwd → ∃ i : Nat, y.data = (i : Int) ∧ matching p i k) ∧
        (y.com ≠ .JumpFwd → y.com ≠ .JumpBwd → p[k]? = some y) := by
  obtain ⟨p1, hf, hcom1, hel1⟩ := annotate_forward_spec p hp
  have hp1 : balanced p1 := by unfold balanced at hp ⊢; rw [hcom1]; exact hp
  obtain ⟨q, hb, hcom2, hel2⟩ := annotate_backward_spec p1 hp1
  refine ⟨q, by simp [annotate, hf, hb], hcom2.trans hcom1, fun k y hy => ?_⟩
  obtain ⟨h1, h2⟩ := hel2 k y hy
  refine ⟨fun h => ?_, fun h => ?_, fun hF hB => ?_⟩
  · have hy1 := h2 (by rw [h]; decide)
    exact (hel1 k y hy1).1 h
  · obtain ⟨i, hd, hm⟩ := h1 h
    exact ⟨i, hd, (matching_congr p p1 hcom1 i k).mp hm⟩
  · exact (hel1 k y (h2 hB)).2 hF

theorem getElem?_of_map_com (q : List ins) (k : Nat) (c : com)
    (h : (q.map ins.com)[k]? = some c) : ∃ d, q[k]? = some ⟨c, d⟩ := by
  rw [List.getElem?_map] at h
  cases hq : q[k]? with
  | none => simp [hq] at h
  | some y =>
    simp only [hq, Option.map_some', Option.some.injEq] at h
    exact ⟨y.data, by rw [← h]⟩

/-! ## Runs of the executor loop -/

theorem translate_replicate (n : Nat) (ch : Char) (x : ins) (h : instruction_of ch = some x) :
    translate (List.replicate n ch) = List.replicate n x := by
  rw [translate_eq]
  induction n with
  | zero => rfl
  | succ n ih => simp [List.replicate_succ, List.filterMap_cons, h, ih]

theorem absorb_replicate (c : com) (hm : mergeable c = true) (m : Nat) (d : Int)
    (rest : List ins) :
    absorb ⟨c, d⟩ (List.replicate m ⟨c, unit_of c⟩ ++ rest) =
      absorb ⟨c, d + unit_of c * (m : Int)⟩ rest := by
  induction m generalizing d with
  | zero => simp
  | succ m ih =>
    rw [List.replicate_succ, List.cons_append, absorb, if_pos ⟨hm, rfl⟩, ih]
    congr 2
    push_cast
    ring

theorem squash_replicate (c : com) (hm : mergeable c = true) (m : Nat) (rest : List ins) :
    squash (List.replicate (m + 1) ⟨c, unit_of c⟩ ++ rest) =
      absorb ⟨c, unit_of c * ((m : Int) + 1)⟩ rest := by
  rw [List.replicate_succ, List.cons_append, squash, absorb_replicate c hm]
  congr 2
  ring

theorem exec_loop_halted (program : List ins) (fuel : Nat) (s : State)
    (h : program.length ≤ s.iptr) : exec_loop program fuel s = .halted s := by
  cases fuel with
  | zero => simp [exec_loop, Nat.not_lt.mpr h]
  | succ fuel => simp [exec_loop, List.getElem?_eq_none h]

theorem exec_loop_step (program : List ins) (fuel : Nat) (s t : State) (x : ins)
    (hx : program[s.iptr]? = some x) (hs : exec_step x s = some t) :
    exec_loop program (fuel + 1) s = exec_loop program fuel t := by
  simp [exec_loop, hx, hs]

theorem exec_loop_zero_running (program : List ins) (s : State) (x : ins)
    (hx : program[s.iptr]? = some x) : exec_loop program 0 s = .running s := by
  have h : s.iptr < program.length := (List.getElem?_eq_some_iff.mp hx).1
  simp [exec_loop, h]

theorem exec_loop_undefined (program : List ins) (fuel : Nat) (s : State) (x : ins)
    (hx : program[s.iptr]? = some x) (hs : exec_step x s = none) :
    exec_loop program (fuel + 1) s = .undefined := by
  simp [exec_loop, hx, hs]

theorem reaches_one (program : List ins) (s t : State) (x : ins)
    (hx : program[s.iptr]? = some x) (hs : exec_step x s = some t) :
    reaches program s 1 t := by
  refine ⟨fun fuel => exec_loop_step program fuel s t x hx hs, fun fuel hf r => ?_⟩
  have : fuel = 0 := by omega
  subst this
  rw [exec_loop_zero_running program s x hx]
  exact fun h => Outcome.noConfusion h

theorem reaches_trans (program : List ins) (s t r : State) (m n : Nat)
    (h1 : reaches program s m t) (h2 : reaches program t n r) :
    reaches program s (m + n) r := by
  refine ⟨fun fuel => ?_, fun fuel hf r2 => ?_⟩
  · rw [← Nat.add_assoc, Nat.add_right_comm, h1.1, h2.1]
  · by_cases hlt : fuel < m
    · exact h1.2 fuel hlt r2
    · obtain ⟨d, rfl⟩ : ∃ d, fuel = d + m := ⟨fuel - m, by omega⟩
      rw [h1.1]
      exact h2.2 d (by omega) r2

theorem never_halts_one (program : List ins) (s : State) (x : ins)
    (hx : program[s.iptr]? = some x) (hs : exec_step x s = none) :
    never_halts program s := by
  intro fuel r
  cases fuel with
  | zero =>
    rw [exec_loop_zero_running program s x hx]
    exact fun h => Outcome.noConfusion h
  | succ fuel =>
    rw [exec_loop_undefined program fuel s x hx hs]
    exact fun h => Outcome.noConfusion h

theorem exec_loop_halted_mono (program : List ins) (fuel k : Nat) (s r : State)
    (h : exec_loop program fuel s = .halted r) : exec_loop program (fuel + k) s = .halted r := by
  induction fuel generalizing s with
  | zero =>
    have hlen : program.length ≤ s.iptr := by
      by_contra hc
      simp [exec_loop, Nat.lt_of_not_le hc] at h
    rw [exec_loop_halted program 0 s hlen] at h
    rw [exec_loop_halted program _ s hlen]
    exact h
  | succ fuel ih =>
    rw [Nat.add_right_comm]
    simp only [exec_loop] at h ⊢
    cases hx : program[s.iptr]? with
    | none => simpa [hx] using h
    | some x =>
      simp only [hx] at h ⊢
      cases hs : exec_step x s with
      | none => simp [hs] at h
      | some t =>
        simp only [hs] at h ⊢
        exact ih t h

theorem exec_loop_halted_unique (program : List ins) (f1 f2 : Nat) (s r1 r2 : State)
    (h1 : exec_loop program f1 s = .halted r1) (h2 : exec_loop program f2 s = .halted r2) :
    r1 = r2 := by
  have e1 := exec_loop_halted_mono program f1 f2 s r1 h1
  have e2 := exec_loop_halted_mono program f2 f1 s r2 h2
  rw [Nat.add_comm] at e2
  rw [e1] at e2
  exact Outcome.halted.inj e2

theorem move_block (program : List ins) (c : com) (hc : c = .IncDptr ∨ c = .DecDptr)
    (m : Nat) :
    ∀ s : State, (∀ t, t < m + 1 → program[s.iptr + t]? = some ⟨c, unit_of c⟩) →
      s.iptr + (m + 1) < 18446744073709551616 →
      reaches program s (m + 1)
        ⟨s.iptr + (m + 1), to_size_t ((s.dptr : Int) + unit_of c * ((m + 1 : Nat) : Int)),
          s.tape, s.input, s.output⟩ := by
  induction m with
  | zero =>
    intro s hp hb
    have h0 := hp 0 (by omega)
    rw [Nat.add_zero] at h0
    refine reaches_one program s _ _ h0 ?_
    have hmod : (s.iptr + 1) % 18446744073709551616 = s.iptr + 1 := Nat.mod_eq_of_lt hb
    rcases hc with rfl | rfl <;> simp [exec_step, exec_switch, hmod]
  | succ m ih =>
    intro s hp hb
    have h0 := hp 0 (by omega)
    rw [Nat.add_zero] at h0
    have hmod : (s.iptr + 1) % 18446744073709551616 = s.iptr + 1 :=
      Nat.mod_eq_of_lt (by omega)
    have hstep : exec_step ⟨c, unit_of c⟩ s =
        some ⟨s.iptr + 1, to_size_t ((s.dptr : Int) + unit_of c), s.tape, s.input, s.output⟩ := by
      rcases hc with rfl | rfl <;> simp [exec_step, exec_switch, hmod]
    have h1 := reaches_one program s _ _ h0 hstep
    have h2 := ih ⟨s.iptr + 1, to_size_t ((s.dptr : Int) + unit_of c), s.tape, s.input,
      s.output⟩ (fun t ht => by
        have := hp (t + 1) (by omega)
        simpa [Nat.add_assoc, Nat.add_comm 1 t] using this) (by simp only; omega)
    have h3 := reaches_trans program _ _ _ 1 (m + 1) h1 h2
    have e1 : 1 + (m + 1) = m + 1 + 1 := by omega
    have e2 : s.iptr + 1 + (m + 1) = s.iptr + (m + 1 + 1) := by omega
    have e3 : to_size_t ((to_size_t ((s.dptr : Int) + unit_of c) : Int) +
        unit_of c * ((m + 1 : Nat) : Int)) =
        to_size_t ((s.dptr : Int) + unit_of c * ((m + 1 + 1 : Nat) : Int)) := by
      rcases hc with rfl | rfl <;> simp only [to_size_t, unit_of] <;> push_cast <;> omega
    simp only [e1, e2, e3] at h3
    exact h3

theorem tape_set_set (tape : Nat → Nat) (d v w : Nat) :
    tape_set (tape_set tape d v) d w = tape_set tape d w := by
  funext k
  simp only [tape_set]
  split <;> rfl

theorem tape_set_same (tape : Nat → Nat) (d v : Nat) : tape_set tape d v d = v := by
  simp [tape_set]

theorem cell_block (program : List ins) (c : com) (hc : c = .IncCell ∨ c = .DecCell)
    (m : Nat) :
    ∀ s : State, (∀ t, t < m + 1 → program[s.iptr + t]? = some ⟨c, unit_of c⟩) →
      s.iptr + (m + 1) < 18446744073709551616 → s.dptr < TAPE_SIZE →
      reaches program s (m + 1)
        ⟨s.iptr + (m + 1), s.dptr,
          tape_set s.tape s.dptr
            (to_cell ((s.tape s.dptr : Int) + unit_of c * ((m + 1 : Nat) : Int))),
          s.input, s.output⟩ := by
  induction m with
  | zero =>
    intro s hp hb hd
    have h0 := hp 0 (by omega)
    rw [Nat.add_zero] at h0
    refine reaches_one program s _ _ h0 ?_
    have hmod : (s.iptr + 1) % 18446744073709551616 = s.iptr + 1 := Nat.mod_eq_of_lt hb
    rcases hc with rfl | rfl <;> simp [exec_step, exec_switch, hmod, hd]
  | succ m ih =>
    intro s hp hb hd
    have h0 := hp 0 (by omega)
    rw [Nat.add_zero] at h0
    have hmod : (s.iptr + 1) % 18446744073709551616 = s.iptr + 1 :=
      Nat.mod_eq_of_lt (by omega)
    have hstep : exec_step ⟨c, unit_of c⟩ s =
        some ⟨s.iptr + 1, s.dptr,
          tape_set s.tape s.dptr (to_cell ((s.tape s.dptr : Int) + unit_of c)),
          s.input, s.output⟩ := by
      rcases hc with rfl | rfl <;> simp [exec_step, exec_switch, hmod, hd]
    have h1 := reaches_one program s _ _ h0 hstep
    have h2 := ih ⟨s.iptr + 1, s.dptr,
      tape_set s.tape s.dptr (to_cell ((s.tape s.dptr : Int) + unit_of c)), s.input,
      s.output⟩ (fun t ht => by
        have := hp (t + 1) (by omega)
        simpa [Nat.add_assoc, Nat.add_comm 1 t] using this) (by simp only; omega) hd
    have h3 := reaches_trans program _ _ _ 1 (m + 1) h1 h2
    have e1 : 1 + (m + 1) = m + 1 + 1 := by omega
    have e2 : s.iptr + 1 + (m + 1) = s.iptr + (m + 1 + 1) := by omega
    have e3 : to_cell ((to_cell ((s.tape s.dptr : Int) + unit_of c) : Int) +
        unit_of c * ((m + 1 : Nat) : Int)) =
        to_cell ((s.tape s.dptr : Int) + unit_of c * ((m + 1 + 1 : Nat) : Int)) := by
      rcases hc with rfl | rfl <;> simp only [to_cell, unit_of] <;> push_cast <;> omega
    simp only [e1, e2, tape_set_set, tape_set_same, e3] at h3
    exact h3

theorem to_size_t_cast (j : Nat) (h : j < 18446744073709551616) : to_size_t (j : Int) = j := by
  unfold to_size_t
  omega

theorem sim_step (P Q : List ins) (f : Nat → Nat) (h : aligned P Q f) (s : State) (x : ins)
    (hx : Q[s.iptr]? = some x) :
    (∃ t m, exec_step x s = some t ∧ t.iptr ≤ Q.length ∧
        reaches P (lift_state f s) (m + 1) (lift_state f t)) ∨
      (exec_step x s = none ∧ never_halts P (lift_state f s)) := by
  have hk : s.iptr < Q.length := (List.getElem?_eq_some_iff.mp hx).1
  have hq := h.qbound
  have hpb := h.bound
  have hk1 : (s.iptr + 1) % 18446744073709551616 = s.iptr + 1 := Nat.mod_eq_of_lt (by omega)
  have hfk1 := h.le (s.iptr + 1) (by omega)
  obtain ⟨c, d⟩ := x
  have hmove : c = .IncDptr ∨ c = .DecDptr →
      (∃ t m, exec_step ⟨c, d⟩ s = some t ∧ t.iptr ≤ Q.length ∧
        reaches P (lift_state f s) (m + 1) (lift_state f t)) := by
    intro hc
    obtain ⟨m, hd, hf, hp⟩ := h.merged _ _ hx (by rcases hc with rfl | rfl <;> rfl)
    simp only at hd hf hp
    refine ⟨⟨s.iptr + 1, to_size_t ((s.dptr : Int) + d), s.tape, s.input, s.output⟩, m,
      ?_, by simp only; omega, ?_⟩
    · rcases hc with rfl | rfl <;> simp [exec_step, exec_switch, hk1]
    · have := move_block P c hc m (lift_state f s) hp
        (by simp only [lift_state]; omega)
      simpa only [lift_state, hf, hd] using this
  have hcell : c = .IncCell ∨ c = .DecCell →
      (∃ t m, exec_step ⟨c, d⟩ s = some t ∧ t.iptr ≤ Q.length ∧
        reaches P (lift_state f s) (m + 1) (lift_state f t)) ∨
      (exec_step ⟨c, d⟩ s = none ∧ never_halts P (lift_state f s)) := by
    intro hc
    obtain ⟨m, hd, hf, hp⟩ := h.merged _ _ hx (by rcases hc with rfl | rfl <;> rfl)
    simp only at hd hf hp
    by_cases hdp : s.dptr < TAPE_SIZE
    · left
      refine ⟨⟨s.iptr + 1, s.dptr, tape_set s.tape s.dptr
        (to_cell ((s.tape s.dptr : Int) + d)), s.input, s.output⟩, m,
        ?_, by simp only; omega, ?_⟩
      · rcases hc with rfl | rfl <;> simp [exec_step, exec_switch, hk1, hdp]
      · have := cell_block P c hc m (lift_state f s) hp
          (by simp only [lift_state]; omega) hdp
        simpa only [lift_state, hf, hd] using this
    · right
      have h0 := hp 0 (by omega)
      rw [Nat.add_zero] at h0
      refine ⟨?_, never_halts_one P (lift_state f s) _ h0 ?_⟩
      · rcases hc with rfl | rfl <;> simp [exec_step, exec_switch, hdp]
      · rcases hc with rfl | rfl <;> simp [exec_step, exec_switch, hdp, lift_state]
  have hio : c = .OutCell ∨ c = .InpCell →
      (∃ t m, exec_step ⟨c, d⟩ s = some t ∧ t.iptr ≤ Q.length ∧
        reaches P (lift_state f s) (m + 1) (lift_state f t)) ∨
      (exec_step ⟨c, d⟩ s = none ∧ never_halts P (lift_state f s)) := by
    intro hc
    obtain ⟨hp, hf⟩ := h.io _ _ hx hc
    have hf1 : (f s.iptr + 1) % 18446744073709551616 = f s.iptr + 1 :=
      Nat.mod_eq_of_lt (by omega)
    by_cases hdp : s.dptr < TAPE_SIZE
    · left
      rcases hc with rfl | rfl
      · refine ⟨⟨s.iptr + 1, s.dptr, s.tape, s.input, s.output ++ [s.tape s.dptr % 256]⟩, 0,
          by simp [exec_step, exec_switch, hk1, hdp], by simp only; omega, ?_⟩
        exact reaches_one P _ _ _ hp (by simp [exec_step, exec_switch, hf1, hdp, lift_state, hf])
      · cases hin : s.input with
        | nil =>
          refine ⟨⟨s.iptr + 1, s.dptr, tape_set s.tape s.dptr (to_cell (-1)), [], s.output⟩, 0,
            by simp [exec_step, exec_switch, hk1, hdp, hin], by simp only; omega, ?_⟩
          exact reaches_one P _ _ _ hp
            (by simp [exec_step, exec_switch, hf1, hdp, lift_state, hf, hin])
        | cons b rest =>
          refine ⟨⟨s.iptr + 1, s.dptr, tape_set s.tape s.dptr (to_cell (b % 256 : Nat)), rest,
            s.output⟩, 0,
            by simp [exec_step, exec_switch, hk1, hdp, hin], by simp only; omega, ?_⟩
          exact reaches_one P _ _ _ hp
            (by simp [exec_step, exec_switch, hf1, hdp, lift_state, hf, hin])
    · right
      refine ⟨?_, never_halts_one P (lift_state f s) _ hp ?_⟩
      · rcases hc with rfl | rfl <;> simp [exec_step, exec_switch, hdp]
      · rcases hc with rfl | rfl <;> simp [exec_step, exec_switch, hdp, lift_state]
  have hjump : c = .JumpFwd ∨ c = .JumpBwd →
      (∃ t m, exec_step ⟨c, d⟩ s = some t ∧ t.iptr ≤ Q.length ∧
        reaches P (lift_state f s) (m + 1) (lift_state f t)) ∨
      (exec_step ⟨c, d⟩ s = none ∧ never_halts P (lift_state f s)) := by
    intro hc
    obtain ⟨j, hd, hj, hp, hf, hfj⟩ := h.jump _ _ hx hc
    simp only at hd hp hf hfj
    subst hd
    have hfj1 := h.le (j + 1) (by omega)
    have hf1 : (f s.iptr + 1) % 18446744073709551616 = f s.iptr + 1 :=
      Nat.mod_eq_of_lt (by omega)
    have hj1 : (j + 1) % 18446744073709551616 = j + 1 := Nat.mod_eq_of_lt (by omega)
    have hfj2 : (f j + 1) % 18446744073709551616 = f j + 1 := Nat.mod_eq_of_lt (by omega)
    have hcj : to_size_t (j : Int) = j := to_size_t_cast j (by omega)
    have hcf : to_size_t (f j : Int) = f j := to_size_t_cast (f j) (by omega)
    by_cases hdp : s.dptr < TAPE_SIZE
    · left
      by_cases hz : s.tape s.dptr = 0
      · rcases hc with rfl | rfl
        · refine ⟨⟨j + 1, s.dptr, s.tape, s.input, s.output⟩, 0,
            by simp [exec_step, exec_switch, hdp, hz, hcj, hj1], by simp only; omega, ?_⟩
          exact reaches_one P _ _ _ hp
            (by simp [exec_step, exec_switch, hdp, hz, hcf, hfj2, lift_state, hfj])
        · refine ⟨⟨s.iptr + 1, s.dptr, s.tape, s.input, s.output⟩, 0,
            by simp [exec_step, exec_switch, hdp, hz, hk1], by simp only; omega, ?_⟩
          exact reaches_one P _ _ _ hp
            (by simp [exec_step, exec_switch, hdp, hz, hf1, lift_state, hf])
      · rcases hc with rfl | rfl
        · refine ⟨⟨s.iptr + 1, s.dptr, s.tape, s.input, s.output⟩, 0,
            by simp [exec_step, exec_switch, hdp, hz, hk1], by simp only; omega, ?_⟩
          exact reaches_one P _ _ _ hp
            (by simp [exec_step, exec_switch, hdp, hz, hf1, lift_state, hf])
        · refine ⟨⟨j + 1, s.dptr, s.tape, s.input, s.output⟩, 0,
            by simp [exec_step, exec_switch, hdp, hz, hcj, hj1], by simp only; omega, ?_⟩
          exact reaches_one P _ _ _ hp
            (by simp [exec_step, exec_switch, hdp, hz, hcf, hfj2, lift_state, hfj])
    · right
      refine ⟨?_, never_halts_one P (lift_state f s) _ hp ?_⟩
      · rcases hc with rfl | rfl <;> simp [exec_step, exec_switch, hdp]
      · rcases hc with rfl | rfl <;> simp [exec_step, exec_switch, hdp, lift_state]
  cases c
  · exact Or.inl (hmove (Or.inl rfl))
  · exact Or.inl (hmove (Or.inr rfl))
  · exact hcell (Or.inl rfl)
  · exact hcell (Or.inr rfl)
  · exact hio (Or.inl rfl)
  · exact hio (Or.inr rfl)
  · exact hjump (Or.inl rfl)
  · exact hjump (Or.inr rfl)

theorem sim_halted_at_end (P Q : List ins) (f : Nat → Nat) (h : aligned P Q f) (s : State)
    (hle : s.iptr ≤ Q.length) (hge : Q.length ≤ s.iptr) (fuel : Nat) :
    exec_loop P fuel (lift_state f s) = .halted (lift_state f s) := by
  have e : s.iptr = Q.length := Nat.le_antisymm hle hge
  refine exec_loop_halted P fuel _ ?_
  simp only [lift_state, e, h.finish]
  exact Nat.le_refl _

theorem sim_forward (P Q : List ins) (f : Nat → Nat) (h : aligned P Q f) (fuel : Nat) :
    ∀ s r : State, s.iptr ≤ Q.length → exec_loop Q fuel s = .halted r →
      ∃ fuel2, exec_loop P fuel2 (lift_state f s) = .halted (lift_state f r) := by
  induction fuel with
  | zero =>
    intro s r hle hrun
    by_cases hlt : s.iptr < Q.length
    · simp [exec_loop, hlt] at hrun
    · simp only [exec_loop, hlt, if_false, Outcome.halted.injEq] at hrun
      subst hrun
      exact ⟨0, sim_halted_at_end P Q f h s hle (Nat.le_of_not_lt hlt) 0⟩
  | succ fuel ih =>
    intro s r hle hrun
    cases hx : Q[s.iptr]? with
    | none =>
      simp only [exec_loop, hx, Outcome.halted.injEq] at hrun
      subst hrun
      exact ⟨0, sim_halted_at_end P Q f h s hle (List.getElem?_eq_none_iff.mp hx) 0⟩
    | some x =>
      rcases sim_step P Q f h s x hx with ⟨t, m, hstep, htle, hreach⟩ | ⟨hstep, -⟩
      · rw [exec_loop_step Q fuel s t x hx hstep] at hrun
        obtain ⟨fuel2, h2⟩ := ih t r htle hrun
        exact ⟨fuel2 + (m + 1), by rw [hreach.1, h2]⟩
      · rw [exec_loop_undefined Q fuel s x hx hstep] at hrun
        exact Outcome.noConfusion hrun

theorem sim_backward (P Q : List ins) (f : Nat → Nat) (h : aligned P Q f) (fuel : Nat) :
    ∀ (s r2 : State), s.iptr ≤ Q.length → exec_loop P fuel (lift_state f s) = .halted r2 →
      ∃ fuel2 r, exec_loop Q fuel2 s = .halted r ∧ r2 = lift_state f r := by
  induction fuel using Nat.strong_induction_on with
  | _ fuel ih =>
    intro s r2 hle hrun
    cases hx : Q[s.iptr]? with
    | none =>
      have hge := List.getElem?_eq_none_iff.mp hx
      rw [sim_halted_at_end P Q f h s hle hge fuel] at hrun
      exact ⟨0, s, exec_loop_halted Q 0 s hge, (Outcome.halted.inj hrun).symm⟩
    | some x =>
      rcases sim_step P Q f h s x hx with ⟨t, m, hstep, htle, hreach⟩ | ⟨-, hnever⟩
      · by_cases hlt : fuel < m + 1
        · exact absurd hrun (hreach.2 fuel hlt r2)
        · obtain ⟨d, rfl⟩ : ∃ d, fuel = d + (m + 1) := ⟨fuel - (m + 1), by omega⟩
          rw [hreach.1] at hrun
          obtain ⟨fuel2, r, h2, h3⟩ := ih d (by omega) t r2 htle hrun
          exact ⟨fuel2 + 1, r, by rw [exec_loop_step Q fuel2 s t x hx hstep, h2], h3⟩
      · exact absurd hrun (hnever fuel r2)

theorem aligned_runs (P Q : List ins) (f : Nat → Nat) (h : aligned P Q f) (stdin : List Nat) :
    ((∃ fuel t, exec_loop P fuel (initial stdin) = .halted t) ↔
        (∃ fuel t, exec_loop Q fuel (initial stdin) = .halted t)) ∧
      ∀ fuel1 fuel2 t1 t2, exec_loop P fuel1 (initial stdin) = .halted t1 →
        exec_loop Q fuel2 (initial stdin) = .halted t2 →
        t1.output = t2.output ∧ t1.tape = t2.tape := by
  have hinit : lift_state f (initial stdin) = initial stdin := by
    simp [lift_state, initial, h.start]
  refine ⟨⟨fun ⟨fuel, t, ht⟩ => ?_, fun ⟨fuel, t, ht⟩ => ?_⟩, fun fuel1 fuel2 t1 t2 h1 h2 => ?_⟩
  · rw [← hinit] at ht
    obtain ⟨fuel2, r, hr, -⟩ := sim_backward P Q f h fuel (initial stdin) t (Nat.zero_le _) ht
    exact ⟨fuel2, r, hr⟩
  · obtain ⟨fuel2, hr⟩ := sim_forward P Q f h fuel (initial stdin) t (Nat.zero_le _) ht
    rw [hinit] at hr
    exact ⟨fuel2, _, hr⟩
  · obtain ⟨fuel3, hr⟩ := sim_forward P Q f h fuel2 (initial stdin) t2 (Nat.zero_le _) h2
    rw [hinit] at hr
    have := exec_loop_halted_unique P fuel1 fuel3 _ _ _ h1 hr
    subst this
    exact ⟨rfl, rfl⟩

/-! ## Alignment of the optimised program with the unoptimised one -/

theorem expand_all_append (a b : List ins) :
    expand_all (a ++ b) = expand_all a ++ expand_all b := by
  induction a with
  | nil => rfl
  | cons x a ih => simp [expand_all, ih]

theorem expand_unit (i : ins) (hi : i.data = unit_of i.com) : expand i = [i] := by
  obtain ⟨c, d⟩ := i
  simp only at hi
  subst hi
  cases c <;> simp [expand, mergeable, unit_of]

theorem expand_bump (c : com) (d : Int) (hm : mergeable c = true) (hd : 0 < d * unit_of c) :
    expand ⟨c, d + unit_of c⟩ = expand ⟨c, d⟩ ++ [⟨c, unit_of c⟩] := by
  have hn : (d + unit_of c).natAbs = d.natAbs + 1 := by
    cases c <;> simp [mergeable, unit_of] at hm hd ⊢ <;> omega
  simp only [expand, hm, if_true, hn, List.replicate_succ']

theorem expand_all_absorb (rest : List ins) (l : ins)
    (hu : ∀ y ∈ rest, y.data = unit_of y.com)
    (hl : mergeable l.com = true → 0 < l.data * unit_of l.com) :
    expand_all (absorb l rest) = expand l ++ rest := by
  induction rest generalizing l with
  | nil => simp [absorb, expand_all]
  | cons i rest ih =>
    have hr : ∀ y ∈ rest, y.data = unit_of y.com := fun y hy => hu y (List.mem_cons_of_mem _ hy)
    have hi := hu i (List.mem_cons_self _ _)
    have hsq : mergeable i.com = true → 0 < i.data * unit_of i.com := by
      intro hm
      rw [hi]
      revert hm; cases i.com <;> simp [mergeable, unit_of]
    simp only [absorb]
    split
    · next hc =>
      have hml : mergeable l.com = true := by rw [hc.2]; exact hc.1
      have hpos := hl hml
      have hsign : mergeable l.com = true →
          0 < (l.data + unit_of i.com) * unit_of l.com := by
        intro _
        have h2 : unit_of l.com * unit_of l.com = 1 := by
          revert hml; cases l.com <;> simp [mergeable, unit_of]
        rw [← hc.2]
        nlinarith
      rw [ih _ hr hsign, ← hc.2, expand_bump l.com l.data hml hpos]
      have : i = ⟨l.com, unit_of l.com⟩ := by
        obtain ⟨ic, id⟩ := i
        simp only at hi hc
        rw [hi, ← hc.2]
      rw [this]
      simp
    · rw [expand_all, ih i hr hsq, expand_unit i hi]
      simp

theorem expand_all_squash (T : List ins) (hu : ∀ y ∈ T, y.data = unit_of y.com) :
    expand_all (squash T) = T := by
  cases T with
  | nil => rfl
  | cons i rest =>
    have hi := hu i (List.mem_cons_self _ _)
    rw [squash, expand_all_absorb rest i (fun y hy => hu y (List.mem_cons_of_mem _ hy)),
      expand_unit i hi]
    · rfl
    · intro hm
      rw [hi]
      revert hm; cases i.com <;> simp [mergeable, unit_of]

theorem bracket_scan_expand_all (l : List ins) (d : Nat) :
    bracket_scan .JumpFwd .JumpBwd d ((expand_all l).map ins.com) =
      bracket_scan .JumpFwd .JumpBwd d (l.map ins.com) := by
  induction l generalizing d with
  | nil => rfl
  | cons x l ih =>
    obtain ⟨c, v⟩ := x
    have hrep : ∀ (n : Nat) (c : com) (tl : List com) (d : Nat),
        c ≠ .JumpFwd → c ≠ .JumpBwd →
        bracket_scan .JumpFwd .JumpBwd d (List.replicate n c ++ tl) =
        bracket_scan .JumpFwd .JumpBwd d tl := by
      intro n c tl d h1 h2
      induction n with
      | zero => rfl
      | succ n ihn => simp [List.replicate_succ, bracket_scan, h1, h2, ihn]
    cases c <;>
      simp only [expand_all, expand, mergeable, if_true, List.map_append, List.map_cons,
        Bool.false_eq_true, if_false, List.singleton_append, List.map_replicate] <;>
      first
        | (rw [hrep _ _ _ _ (by decide) (by decide)]
           simp [bracket_scan, ih])
        | simp [bracket_scan, ih]

theorem balanced_squash (T : List ins) (hu : ∀ y ∈ T, y.data = unit_of y.com)
    (hb : balanced T) : balanced (squash T) := by
  unfold balanced at hb ⊢
  rw [← bracket_scan_expand_all, expand_all_squash T hu]
  exact hb

theorem run_start_zero (O : List ins) : run_start O 0 = 0 := rfl

theorem run_start_length (O : List ins) : run_start O O.length = (expand_all O).length := by
  simp [run_start]

theorem run_start_succ (O : List ins) (k : Nat) (x : ins) (hx : O[k]? = some x) :
    run_start O (k + 1) = run_start O k + (expand x).length := by
  simp [run_start, List.take_succ, hx, expand_all_append, expand_all]

theorem run_start_le (O : List ins) (k : Nat) : run_start O k ≤ (expand_all O).length := by
  have h := congrArg (fun l => (expand_all l).length) (List.take_append_drop k O)
  simp only [expand_all_append, List.length_append] at h
  unfold run_start
  omega

theorem expand_all_getElem? (O : List ins) (k t : Nat) (x : ins) (hx : O[k]? = some x)
    (ht : t < (expand x).length) :
    (expand_all O)[run_start O k + t]? = (expand x)[t]? := by
  have hk : k < O.length := (List.getElem?_eq_some_iff.mp hx).1
  have hxx : O[k] = x := (List.getElem?_eq_some_iff.mp hx).2
  have h : expand_all O =
      expand_all (O.take k) ++ (expand x ++ expand_all (O.drop (k + 1))) := by
    conv_lhs => rw [← List.take_append_drop k O, List.drop_eq_getElem_cons hk, hxx]
    rw [expand_all_append, expand_all]
  rw [h, run_start, List.getElem?_append_right (Nat.le_add_right _ _), Nat.add_sub_cancel_left,
    List.getElem?_append_left ht]

theorem matching_iff_split (p : List ins) (i j : Nat) :
    matching p i j ↔ ∃ pu xo pb xc pv, p = pu ++ xo :: (pb ++ xc :: pv) ∧
      xo.com = .JumpFwd ∧ xc.com = .JumpBwd ∧ balanced pb ∧ pu.length = i ∧
      j = i + 1 + pb.length := by
  constructor
  · rintro ⟨u, b, v, hcs, hb, hu, hj⟩
    obtain ⟨pu, r1, rfl, h1, h2⟩ := List.map_eq_append_iff.mp hcs
    obtain ⟨xo, r2, rfl, h3, h4⟩ := List.map_eq_cons_iff.mp h2
    obtain ⟨pb, r3, rfl, h5, h6⟩ := List.map_eq_append_iff.mp h4
    obtain ⟨xc, pv, rfl, h7, h8⟩ := List.map_eq_cons_iff.mp h6
    refine ⟨pu, xo, pb, xc, pv, rfl, h3, h7, ?_, ?_, ?_⟩
    · unfold balanced; rw [h5]; exact hb
    · rw [← hu, ← h1, List.length_map]
    · rw [hj, ← h5, List.length_map]
  · rintro ⟨pu, xo, pb, xc, pv, rfl, h1, h2, hb, hu, hj⟩
    exact ⟨pu.map ins.com, pb.map ins.com, pv.map ins.com, by simp [h1, h2], hb,
      by simpa using hu, by simpa using hj⟩

theorem expand_jump (x : ins) (h : x.com = .JumpFwd ∨ x.com = .JumpBwd) : expand x = [x] := by
  obtain ⟨c, d⟩ := x
  rcases h with h | h <;> simp only at h <;> subst h <;> rfl

theorem matching_expand (O : List ins) (i j : Nat) (h : matching O i j) :
    matching (expand_all O) (run_start O i) (run_start O j) := by
  obtain ⟨pu, xo, pb, xc, pv, rfl, h1, h2, hb, hu, hj⟩ := (matching_iff_split O i j).mp h
  refine (matching_iff_split _ _ _).mpr
    ⟨expand_all pu, xo, expand_all pb, xc, expand_all pv, ?_, h1, h2, ?_, ?_, ?_⟩
  · simp [expand_all_append, expand_all, expand_jump xo (Or.inl h1), expand_jump xc (Or.inr h2)]
  · unfold balanced at hb ⊢
    rw [bracket_scan_expand_all]
    exact hb
  · subst hu
    simp [run_start]
  · subst hu hj
    have e : pu ++ xo :: (pb ++ xc :: pv) = (pu ++ xo :: pb) ++ xc :: pv := by simp
    have e2 : pu.length + 1 + pb.length = (pu ++ xo :: pb).length := by simp; omega
    rw [run_start, run_start, e, e2, List.take_left, List.append_assoc, List.take_left]
    simp [expand_all_append, expand_all, expand_jump xo (Or.inl h1)]
    omega

theorem annotate_complete (p q : List ins) (hp : balanced p) (hq : annotate p = some q)
    (i j : Nat) (h : matching p i j) :
    q[i]? = some ⟨.JumpFwd, (j : Int)⟩ ∧ q[j]? = some ⟨.JumpBwd, (i : Int)⟩ := by
  obtain ⟨q2, hq2, hcom, hel⟩ := annotate_spec p hp
  rw [hq] at hq2
  cases hq2
  have hb := bracket_pair_bounds _ _ _ _ _ h
  rw [← hcom] at hb
  obtain ⟨d1, hd1⟩ := getElem?_of_map_com q i _ hb.2.2.1
  obtain ⟨d2, hd2⟩ := getElem?_of_map_com q j _ hb.2.2.2.1
  obtain ⟨j2, e1, m1⟩ := (hel i _ hd1).1 rfl
  obtain ⟨i2, e2, m2⟩ := (hel j _ hd2).2.1 rfl
  have hj : j2 = j := bracket_pair_unique_right _ _ (by decide) _ _ _ _ m1 h
  have hi : i2 = i := bracket_pair_unique_left _ _ _ _ _ _ m2 h
  subst hj hi
  simp only at e1 e2
  exact ⟨by rw [hd1, e1], by rw [hd2, e2]⟩

theorem annotate_other (p q : List ins) (hp : balanced p) (hq : annotate p = some q)
    (k : Nat) (x : ins) (hx : p[k]? = some x) (h1 : x.com ≠ .JumpFwd) (h2 : x.com ≠ .JumpBwd) :
    q[k]? = some x := by
  obtain ⟨q2, hq2, hcom, hel⟩ := annotate_spec p hp
  rw [hq] at hq2
  cases hq2
  have hc : (q.map ins.com)[k]? = some x.com := by
    rw [hcom, List.getElem?_map, hx]; rfl
  obtain ⟨d, hd⟩ := getElem?_of_map_com q k _ hc
  have := (hel k _ hd).2.2 h1 h2
  rw [hx] at this
  rw [hd]
  exact this.symm

theorem run_start_succ_jump (O : List ins) (k : Nat) (c : com)
    (hc : c = .JumpFwd ∨ c = .JumpBwd) (h : (O.map ins.com)[k]? = some c) :
    run_start O (k + 1) = run_start O k + 1 := by
  obtain ⟨d, hd⟩ := getElem?_of_map_com O k c h
  rw [run_start_succ O k _ hd, expand_jump _ hc]
  rfl

theorem aligned_of_annotate (T P Q : List ins) (hu : ∀ y ∈ T, y.data = unit_of y.com)
    (hb : balanced T) (hlen : T.length < 18446744073709551616)
    (hP : annotate T = some P) (hQ : annotate (squash T) = some Q) :
    aligned P Q (run_start (squash T)) := by
  have hexp := expand_all_squash T hu
  have hbO := balanced_squash T hu hb
  obtain ⟨P2, hP2, hcomP, -⟩ := annotate_spec T hb
  rw [hP] at hP2
  cases hP2
  obtain ⟨Q2, hQ2, hcomQ, helQ⟩ := annotate_spec (squash T) hbO
  rw [hQ] at hQ2
  cases hQ2
  have hlenP : P.length = T.length := by simpa using congrArg List.length hcomP
  have hlenQ : Q.length = (squash T).length := by simpa using congrArg List.length hcomQ
  have hOle := squash_length_le T
  refine ⟨rfl, ?_, ?_, by omega, by omega, ?_, ?_, ?_⟩
  · rw [hlenQ, run_start_length, hexp, hlenP]
  · intro k _
    have := run_start_le (squash T) k
    rw [hexp] at this
    omega
  · intro k x hx hm
    have hF : x.com ≠ .JumpFwd := by intro e; rw [e] at hm; exact Bool.noConfusion hm
    have hB : x.com ≠ .JumpBwd := by intro e; rw [e] at hm; exact Bool.noConfusion hm
    have hO : (squash T)[k]? = some x := (helQ k x hx).2.2 hF hB
    have hmem : x ∈ squash T := List.getElem?_mem hO
    have hpos := squash_sign T hu x hmem hm
    obtain ⟨m, hm1⟩ : ∃ m : Nat, x.data.natAbs = m + 1 :=
      ⟨x.data.natAbs - 1, by
        have : x.data ≠ 0 := by intro e; rw [e] at hpos; simp at hpos
        have := Int.natAbs_pos.mpr this
        omega⟩
    have hex : expand x = List.replicate (m + 1) ⟨x.com, unit_of x.com⟩ := by
      simp only [expand, hm, if_true, hm1]
    refine ⟨m, ?_, ?_, fun t ht => ?_⟩
    · revert hpos hm hm1
      cases x.com <;> simp [mergeable, unit_of] <;> omega
    · rw [run_start_succ _ k x hO, hex, List.length_replicate]
    · have h1 := expand_all_getElem? (squash T) k t x hO (by rw [hex, List.length_replicate]; exact ht)
      rw [hexp, hex, List.getElem?_replicate_of_lt ht] at h1
      exact annotate_other T P hb hP _ _ h1 hF hB
  · intro k x hx hc
    have hF : x.com ≠ .JumpFwd := by rcases hc with e | e <;> rw [e] <;> decide
    have hB : x.com ≠ .JumpBwd := by rcases hc with e | e <;> rw [e] <;> decide
    have hO : (squash T)[k]? = some x := (helQ k x hx).2.2 hF hB
    have hex : expand x = [x] := by
      obtain ⟨c, d⟩ := x
      rcases hc with e | e <;> simp only at e <;> subst e <;> rfl
    have h1 := expand_all_getElem? (squash T) k 0 x hO (by rw [hex]; exact Nat.zero_lt_one)
    rw [hexp, hex, Nat.add_zero] at h1
    exact ⟨annotate_other T P hb hP _ _ h1 hF hB, by rw [run_start_succ _ k x hO, hex]; rfl⟩
  · intro k x hx hc
    obtain ⟨c, d⟩ := x
    rcases hc with e | e <;> simp only at e <;> subst e
    · obtain ⟨j, hd, hmatch⟩ := (helQ k _ hx).1 rfl
      simp only at hd
      have hbd := bracket_pair_bounds _ _ _ _ _ hmatch
      have hT := matching_expand _ _ _ hmatch
      rw [hexp] at hT
      refine ⟨j, hd, ?_, (annotate_complete T P hb hP _ _ hT).1, ?_, ?_⟩
      · have := hbd.2.1
        simp only [List.length_map] at this
        omega
      · exact run_start_succ_jump _ k _ (Or.inl rfl) hbd.2.2.1
      · exact run_start_succ_jump _ j _ (Or.inr rfl) hbd.2.2.2.1
    · obtain ⟨i, hd, hmatch⟩ := (helQ k _ hx).2.1 rfl
      simp only at hd
      have hbd := bracket_pair_bounds _ _ _ _ _ hmatch
      have hT := matching_expand _ _ _ hmatch
      rw [hexp] at hT
      refine ⟨i, hd, ?_, (annotate_complete T P hb hP _ _ hT).2, ?_, ?_⟩
      · have := hbd.2.1
        simp only [List.length_map] at this
        omega
      · exact run_start_succ_jump _ k _ (Or.inr rfl) hbd.2.2.2.1
      · exact run_start_succ_jump _ i _ (Or.inl rfl) hbd.2.2.1

theorem translate_length_le (source : List Char) : (translate source).length ≤ source.length := by
  rw [translate_eq]
  exact List.length_filterMap_le _ _

/-! ## Totality of `optimise`, underflow of `annotate`, and scenario runs -/

theorem optimise_body_total (result : List ins) (i : ins) :
    ∃ r, optimise_body result i = some r := by
  rcases List.eq_nil_or_concat result with rfl | ⟨pre, last, rfl⟩
  · exact ⟨_, optimise_body_nil i⟩
  · rw [List.concat_eq_append]
    exact ⟨_, optimise_body_snoc pre last i⟩

theorem compile_comma_dot : compile [',', '.'] = some [⟨.InpCell, 0⟩, ⟨.OutCell, 0⟩] := by
  decide

theorem pass_list_scan (o c : com) (ix : Nat → Nat) (xs : List ins) :
    ∀ (st : List Nat) (r : List ins × List Nat), pass_list o c ix st xs = some r →
      bracket_scan o c st.length (xs.map ins.com) = some r.2.length ∧
        r.1.map ins.com = xs.map ins.com := by
  induction xs with
  | nil =>
    intro st r h
    simp only [pass_list, Option.some.injEq] at h
    subst h
    exact ⟨rfl, rfl⟩
  | cons x xs ih =>
    intro st r h
    simp only [pass_list] at h
    simp only [List.map_cons, bracket_scan]
    by_cases hxo : x.com = o
    · rw [if_pos hxo] at h ⊢
      obtain ⟨r2, hr2, rfl⟩ := Option.map_eq_some'.mp h
      obtain ⟨h1, h2⟩ := ih _ r2 hr2
      exact ⟨h1, by simp [h2]⟩
    · rw [if_neg hxo] at h ⊢
      by_cases hxc : x.com = c
      · rw [if_pos hxc] at h ⊢
        cases st with
        | nil => simp at h
        | cons top st =>
          obtain ⟨r2, hr2, rfl⟩ := Option.map_eq_some'.mp h
          obtain ⟨h1, h2⟩ := ih _ r2 hr2
          exact ⟨h1, by simp [h2]⟩
      · rw [if_neg hxc] at h ⊢
        obtain ⟨r2, hr2, rfl⟩ := Option.map_eq_some'.mp h
        obtain ⟨h1, h2⟩ := ih _ r2 hr2
        exact ⟨h1, by simp [h2]⟩

theorem balanced_of_annotate (p q : List ins) (h : annotate p = some q) : balanced p := by
  unfold annotate at h
  obtain ⟨p1, hf, hb⟩ := Option.bind_eq_some.mp h
  rw [annotate_forward_eq] at hf
  obtain ⟨r1, hr1, rfl⟩ := Option.map_eq_some'.mp hf
  rw [annotate_backward_eq] at hb
  obtain ⟨r2, hr2, rfl⟩ := Option.map_eq_some'.mp hb
  obtain ⟨s1, c1⟩ := pass_list_scan _ _ _ _ _ _ hr1
  obtain ⟨s2, -⟩ := pass_list_scan _ _ _ _ _ _ hr2
  simp only [List.length_nil, List.map_reverse] at s1 s2
  rw [c1, List.map_reverse, List.reverse_reverse] at s2
  have s3 := bracket_scan_reverse .JumpFwd .JumpBwd (by decide) _ 0 _ s1
  rw [List.reverse_reverse] at s3
  have s4 := bracket_scan_shift _ _ _ 0 _ r1.2.length s2
  rw [Nat.zero_add, s3] at s4
  have : r2.2.length = 0 := by
    have := Option.some.inj s4
    omega
  unfold balanced
  rw [s2, this]

theorem compile_eq (source : List Char) :
    compile source = annotate (squash (translate source)) := by
  rw [compile, optimise_eq]
  rfl

theorem compile_loop_skipped (B : List Char) (hb : balanced (translate B)) :
    ∃ q : List ins, compile ('[' :: B ++ [']']) = some q ∧
      q.length = (squash (translate B)).length + 2 ∧
      q[0]? = some ⟨.JumpFwd, (((squash (translate B)).length + 1 : Nat) : Int)⟩ := by
  have hT : translate ('[' :: B ++ [']']) =
      ⟨.JumpFwd, 0⟩ :: (translate B ++ [⟨.JumpBwd, 0⟩]) := by
    have e : '[' :: B ++ [']'] = ['['] ++ (B ++ [']']) := rfl
    rw [e, translate_append, translate_append]
    rfl
  have hO : squash (translate ('[' :: B ++ [']'])) =
      ⟨.JumpFwd, 0⟩ :: (squash (translate B) ++ [⟨.JumpBwd, 0⟩]) := by
    rw [hT, squash, absorb_other (translate B ++ [(⟨.JumpBwd, 0⟩ : ins)]) ⟨.JumpFwd, 0⟩ rfl, squash_append]
    · rfl
    · intro x _ y hy h
      simp only [List.head?_cons, Option.mem_def, Option.some.injEq] at hy
      subst hy
      exact Bool.noConfusion h.1
  have hbB := balanced_squash _ (translate_unit B) hb
  have hbO : balanced (squash (translate ('[' :: B ++ [']']))) := by
    rw [hO]
    unfold balanced at hbB ⊢
    have := bracket_scan_wrap .JumpFwd .JumpBwd (by decide) [] _ rfl hbB
    simpa using this
  obtain ⟨q, hq, hcom, -⟩ := annotate_spec _ hbO
  have hm : matching (squash (translate ('[' :: B ++ [']']))) 0
      ((squash (translate B)).length + 1) := by
    rw [hO]
    exact (matching_iff_split _ _ _).mpr
      ⟨[], _, squash (translate B), _, [], rfl, rfl, rfl, hbB, rfl, by omega⟩
  refine ⟨q, by rw [compile_eq, hq], ?_, (annotate_complete _ q hbO hq _ _ hm).1⟩
  have := congrArg List.length hcom
  rw [hO] at this
  simpa using this

theorem bracket_scan_jump_free (cs : List com) (d : Nat)
    (h : ∀ c ∈ cs, c ≠ .JumpFwd ∧ c ≠ .JumpBwd) :
    bracket_scan .JumpFwd .JumpBwd d cs = some d := by
  induction cs with
  | nil => rfl
  | cons c cs ih =>
    have hc := h c (List.mem_cons_self _ _)
    simp only [bracket_scan, hc.1, hc.2, if_false]
    exact ih fun c2 h2 => h c2 (List.mem_cons_of_mem _ h2)

theorem annotate_jump_free (p : List ins)
    (h : ∀ x ∈ p, x.com ≠ .JumpFwd ∧ x.com ≠ .JumpBwd) : annotate p = some p := by
  have hb : balanced p := by
    unfold balanced
    exact bracket_scan_jump_free _ 0 fun c hc => by
      obtain ⟨x, hx, rfl⟩ := List.mem_map.mp hc
      exact h x hx
  obtain ⟨q, hq, hcom, hel⟩ := annotate_spec p hb
  rw [hq]
  congr 1
  apply List.ext_getElem?
  intro k
  cases hk : q[k]? with
  | none =>
    have e : q.length = p.length := by simpa using congrArg List.length hcom
    have := List.getElem?_eq_none_iff.mp hk
    rw [List.getElem?_eq_none (by omega)]
  | some y =>
    have hy : y.com ∈ p.map ins.com := by
      rw [← hcom]
      exact List.mem_map.mpr ⟨y, List.getElem?_mem hk, rfl⟩
    obtain ⟨x, hx, hxy⟩ := List.mem_map.mp hy
    have hx2 := h x hx
    rw [hxy] at hx2
    exact ((hel k y hk).2.2 hx2.1 hx2.2).symm

theorem squash_cons_other (x : ins) (rest : List ins) (hx : mergeable x.com = false) :
    squash (x :: rest) = x :: squash rest := by
  rw [squash, absorb_other rest x hx]

theorem squash_run_then_other (c : com) (hm : mergeable c = true) (n : Nat) (x : ins)
    (hx : mergeable x.com = false) (rest : List ins) :
    squash (List.replicate (n + 1) ⟨c, unit_of c⟩ ++ x :: rest) =
      ⟨c, unit_of c * ((n : Int) + 1)⟩ :: x :: squash rest := by
  have hne : ¬ (mergeable x.com = true ∧ c = x.com) := by
    rw [hx]; exact fun h => Bool.noConfusion h.1
  rw [squash_replicate c hm, absorb]
  simp only [hne, if_false]
  rw [absorb_other rest x hx]

theorem exec_loop_cell (P : List ins) (fuel i dp : Nat) (tape : Nat → Nat)
    (inp out : List Nat) (c : com) (d : Int) (hc : c = .IncCell ∨ c = .DecCell)
    (hx : P[i]? = some ⟨c, d⟩) (hd : dp < TAPE_SIZE) (hi : i + 1 < 18446744073709551616) :
    exec_loop P (fuel + 1) ⟨i, dp, tape, inp, out⟩ =
      exec_loop P fuel ⟨i + 1, dp, tape_set tape dp (to_cell ((tape dp : Int) + d)), inp, out⟩ := by
  refine exec_loop_step P fuel _ _ _ hx ?_
  rcases hc with rfl | rfl <;> simp [exec_step, exec_switch, hd, Nat.mod_eq_of_lt hi]

theorem exec_loop_out (P : List ins) (fuel i dp : Nat) (tape : Nat → Nat)
    (inp out : List Nat) (d : Int)
    (hx : P[i]? = some ⟨.OutCell, d⟩) (hd : dp < TAPE_SIZE)
    (hi : i + 1 < 18446744073709551616) :
    exec_loop P (fuel + 1) ⟨i, dp, tape, inp, out⟩ =
      exec_loop P fuel ⟨i + 1, dp, tape, inp, out ++ [tape dp % 256]⟩ := by
  refine exec_loop_step P fuel _ _ _ hx ?_
  simp [exec_step, exec_switch, hd, Nat.mod_eq_of_lt hi]

theorem translate_plus_dot_minus_dot (n m : Nat) :
    translate (List.replicate n '+' ++ ['.'] ++ List.replicate m '-' ++ ['.']) =
      List.replicate n ⟨.IncCell, unit_of .IncCell⟩ ++ ⟨.OutCell, 0⟩ ::
        (List.replicate m ⟨.DecCell, unit_of .DecCell⟩ ++ [⟨.OutCell, 0⟩]) := by
  rw [translate_append, translate_append, translate_append,
    translate_replicate n '+' ⟨.IncCell, 1⟩ (by decide),
    translate_replicate m '-' ⟨.DecCell, -1⟩ (by decide)]
  simp only [List.append_assoc]
  rfl

theorem plus_dot_minus_dot_run (n m fuel : Nat) :
    ∃ s, main (List.replicate n '+' ++ ['.'] ++ List.replicate m '-' ++ ['.']) []
        (fuel + 4) = .halted s ∧
      s.output = [n % 256, (((n : Int) - (m : Int)) % 256).toNat] := by
  have hz : ∀ v : Nat, tape_set (fun _ => 0) 0 v 0 = v := fun v => tape_set_same _ _ _
  cases n with
  | zero =>
    cases m with
    | zero =>
      refine ⟨⟨2, 0, fun _ => 0, [], [0, 0]⟩, ?_, by simp⟩
      have hc : compile (List.replicate 0 '+' ++ ['.'] ++ List.replicate 0 '-' ++ ['.']) =
          some [⟨.OutCell, 0⟩, ⟨.OutCell, 0⟩] := by decide
      simp only [main, hc, initial]
      rw [exec_loop_out _ _ 0 0 _ _ _ 0 rfl (by decide) (by decide),
        exec_loop_out _ _ 1 0 _ _ _ 0 rfl (by decide) (by decide)]
      exact exec_loop_halted _ _ _ (by simp)
    | succ m =>
      have hc : compile (List.replicate 0 '+' ++ ['.'] ++ List.replicate (m + 1) '-' ++ ['.']) =
          some [⟨.OutCell, 0⟩, ⟨.DecCell, -1 * ((m : Int) + 1)⟩, ⟨.OutCell, 0⟩] := by
        rw [compile_eq, translate_plus_dot_minus_dot, List.replicate_zero, List.nil_append,
          squash_cons_other (⟨.OutCell, 0⟩ : ins) _ rfl, squash_run_then_other .DecCell rfl m (⟨.OutCell, 0⟩ : ins) rfl]
        exact annotate_jump_free _ (by simp [squash, unit_of])
      refine ⟨⟨3, 0, tape_set (fun _ => 0) 0 (to_cell (-1 * ((m : Int) + 1))), [],
        [0, to_cell (-1 * ((m : Int) + 1))]⟩, ?_, ?_⟩
      · simp only [main, hc, initial]
        rw [exec_loop_out _ _ 0 0 _ _ _ 0 rfl (by decide) (by decide),
          exec_loop_cell _ _ 1 0 _ _ _ .DecCell _ (Or.inr rfl) rfl (by decide) (by decide),
          exec_loop_out _ _ 2 0 _ _ _ 0 rfl (by decide) (by decide)]
        rw [exec_loop_halted _ _ _ (by simp)]
        simp [hz, to_cell]
        omega
      · simp [to_cell]
  | succ n =>
    cases m with
    | zero =>
      have hc : compile (List.replicate (n + 1) '+' ++ ['.'] ++ List.replicate 0 '-' ++ ['.']) =
          some [⟨.IncCell, 1 * ((n : Int) + 1)⟩, ⟨.OutCell, 0⟩, ⟨.OutCell, 0⟩] := by
        rw [compile_eq, translate_plus_dot_minus_dot, List.replicate_zero, List.nil_append,
          squash_run_then_other .IncCell rfl n (⟨.OutCell, 0⟩ : ins) rfl, squash_cons_other (⟨.OutCell, 0⟩ : ins) _ rfl]
        exact annotate_jump_free _ (by simp [squash, unit_of])
      refine ⟨⟨3, 0, tape_set (fun _ => 0) 0 (to_cell (1 * ((n : Int) + 1))), [],
        [to_cell (1 * ((n : Int) + 1)), to_cell (1 * ((n : Int) + 1))]⟩, ?_, ?_⟩
      · simp only [main, hc, initial]
        rw [exec_loop_cell _ _ 0 0 _ _ _ .IncCell _ (Or.inl rfl) rfl (by decide) (by decide),
          exec_loop_out _ _ 1 0 _ _ _ 0 rfl (by decide) (by decide),
          exec_loop_out _ _ 2 0 _ _ _ 0 rfl (by decide) (by decide)]
        rw [exec_loop_halted _ _ _ (by simp)]
        simp [hz, to_cell]
        omega
      · simp [to_cell]
        omega
    | succ m =>
      have hc : compile (List.replicate (n + 1) '+' ++ ['.'] ++ List.replicate (m + 1) '-' ++
          ['.']) = some [⟨.IncCell, 1 * ((n : Int) + 1)⟩, ⟨.OutCell, 0⟩,
            ⟨.DecCell, -1 * ((m : Int) + 1)⟩, ⟨.OutCell, 0⟩] := by
        rw [compile_eq, translate_plus_dot_minus_dot,
          squash_run_then_other .IncCell rfl n (⟨.OutCell, 0⟩ : ins) rfl,
          squash_run_then_other .DecCell rfl m (⟨.OutCell, 0⟩ : ins) rfl]
        exact annotate_jump_free _ (by simp [squash, unit_of])
      refine ⟨⟨4, 0, tape_set (fun _ => 0) 0
          (to_cell ((to_cell (1 * ((n : Int) + 1)) : Int) + -1 * ((m : Int) + 1))), [],
        [to_cell (1 * ((n : Int) + 1)),
          to_cell ((to_cell (1 * ((n : Int) + 1)) : Int) + -1 * ((m : Int) + 1))]⟩, ?_, ?_⟩
      · simp only [main, hc, initial]
        rw [exec_loop_cell _ _ 0 0 _ _ _ .IncCell _ (Or.inl rfl) rfl (by decide) (by decide),
          exec_loop_out _ _ 1 0 _ _ _ 0 rfl (by decide) (by decide),
          exec_loop_cell _ _ 2 0 _ _ _ .DecCell _ (Or.inr rfl) rfl (by decide) (by decide),
          exec_loop_out _ _ 3 0 _ _ _ 0 rfl (by decide) (by decide)]
        rw [exec_loop_halted _ _ _ (by simp)]
        simp [hz, to_cell, tape_set_set]
        omega
      · simp [to_cell]
        omega

theorem exec_trace_step (program : List ins) (fuel : Nat) (s t : State) (x : ins)
    (hx : program[s.iptr]? = some x) (hs : exec_step x s = some t) :
    exec_trace program (fuel + 1) s = s.iptr :: exec_trace program fuel t := by
  simp [exec_trace, hx, hs]

theorem exec_trace_halted (program : List ins) (fuel : Nat) (s : State)
    (h : program.length ≤ s.iptr) : exec_trace program fuel s = [] := by
  cases fuel with
  | zero => rfl
  | succ fuel => simp [exec_trace, List.getElem?_eq_none h]

theorem dec_cell_runs_append (program : List ins) (a b : List Nat) :
    dec_cell_runs program (a ++ b) = dec_cell_runs program a + dec_cell_runs program b := by
  simp [dec_cell_runs, List.countP_append]

theorem clear_loop_run (P : List ins) (b : Nat) (inp out : List Nat)
    (h1 : P[b + 1]? = some ⟨.DecCell, -1⟩)
    (h2 : P[b + 2]? = some ⟨.JumpBwd, (b : Int)⟩)
    (hb : b + 3 < 18446744073709551616) (v : Nat) :
    v < 256 → ∀ fuel,
      exec_loop P (fuel + 2 * (v + 1)) ⟨b + 1, 0, tape_set (fun _ => 0) 0 (v + 1), inp, out⟩ =
          exec_loop P fuel ⟨b + 3, 0, tape_set (fun _ => 0) 0 0, inp, out⟩ ∧
        dec_cell_runs P (exec_trace P (fuel + 2 * (v + 1))
            ⟨b + 1, 0, tape_set (fun _ => 0) 0 (v + 1), inp, out⟩) =
          (v + 1) + dec_cell_runs P (exec_trace P fuel
            ⟨b + 3, 0, tape_set (fun _ => 0) 0 0, inp, out⟩) := by
  have hdec : ∀ w : Nat, w < 256 →
      exec_step ⟨.DecCell, -1⟩ ⟨b + 1, 0, tape_set (fun _ => 0) 0 (w + 1), inp, out⟩ =
        some ⟨b + 2, 0, tape_set (fun _ => 0) 0 w, inp, out⟩ := by
    intro w hw
    have e1 : (b + 1 + 1) % 18446744073709551616 = b + 2 := Nat.mod_eq_of_lt (by omega)
    have e2 : to_cell (w : Int) = w := by unfold to_cell; omega
    simp [exec_step, exec_switch, TAPE_SIZE, tape_set_same, tape_set_set, e1, e2]
  have hjmp : ∀ w : Nat,
      exec_step ⟨.JumpBwd, (b : Int)⟩ ⟨b + 2, 0, tape_set (fun _ => 0) 0 w, inp, out⟩ =
        some ⟨if w = 0 then b + 3 else b + 1, 0, tape_set (fun _ => 0) 0 w, inp, out⟩ := by
    intro w
    have e1 : (b + 2 + 1) % 18446744073709551616 = b + 3 := Nat.mod_eq_of_lt (by omega)
    have e2 : to_size_t (b : Int) = b := to_size_t_cast b (by omega)
    have e3 : (b + 1) % 18446744073709551616 = b + 1 := Nat.mod_eq_of_lt (by omega)
    by_cases hw : w = 0 <;>
      simp [exec_step, exec_switch, TAPE_SIZE, tape_set_same, hw, e1, e2, e3]
  have hcount1 : decide ((P[b + 1]?).map ins.com = some com.DecCell) = true := by
    simp [h1]
  have hcount2 : decide ((P[b + 2]?).map ins.com = some com.DecCell) = false := by
    simp [h2]
  induction v with
  | zero =>
    intro _ fuel
    have e : fuel + 2 * (0 + 1) = fuel + 1 + 1 := by omega
    rw [e]
    constructor
    · rw [exec_loop_step P _ _ _ _ h1 (hdec 0 (by omega)),
        exec_loop_step P _ _ _ _ h2 (hjmp 0)]
      rfl
    · rw [exec_trace_step P _ _ _ _ h1 (hdec 0 (by omega)),
        exec_trace_step P _ _ _ _ h2 (hjmp 0)]
      simp only [dec_cell_runs, List.countP_cons, hcount1, hcount2, if_true]
      simp
      omega
  | succ v ih =>
    intro hv fuel
    obtain ⟨ih1, ih2⟩ := ih (by omega) fuel
    have e : fuel + 2 * (v + 1 + 1) = fuel + 2 * (v + 1) + 1 + 1 := by omega
    rw [e]
    constructor
    · rw [exec_loop_step P _ _ _ _ h1 (hdec (v + 1) (by omega)),
        exec_loop_step P _ _ _ _ h2 (hjmp (v + 1))]
      simp only [Nat.succ_ne_zero, if_false]
      exact ih1
    · rw [exec_trace_step P _ _ _ _ h1 (hdec (v + 1) (by omega)),
        exec_trace_step P _ _ _ _ h2 (hjmp (v + 1))]
      simp only [Nat.succ_ne_zero, if_false]
      simp only [dec_cell_runs, List.countP_cons, hcount1, hcount2, if_true] at ih2 ⊢
      simp at ih2 ⊢
      omega

theorem compile_clear_loop (n : Nat) :
    compile (List.replicate (n + 1) '+' ++ ['[', '-', ']', '.']) =
      some [⟨.IncCell, 1 * ((n : Int) + 1)⟩, ⟨.JumpFwd, 3⟩, ⟨.DecCell, -1⟩, ⟨.JumpBwd, 1⟩,
        ⟨.OutCell, 0⟩] := by
  have h1 : translate (List.replicate (n + 1) '+' ++ ['[', '-', ']', '.']) =
      List.replicate (n + 1) ⟨.IncCell, unit_of .IncCell⟩ ++
        (⟨.JumpFwd, 0⟩ : ins) :: [⟨.DecCell, -1⟩, ⟨.JumpBwd, 0⟩, ⟨.OutCell, 0⟩] := by
    rw [translate_append, translate_replicate (n + 1) '+' ⟨.IncCell, 1⟩ (by decide)]
    rfl
  have h2 : squash [(⟨.DecCell, -1⟩ : ins), ⟨.JumpBwd, 0⟩, ⟨.OutCell, 0⟩] =
      [⟨.DecCell, -1⟩, ⟨.JumpBwd, 0⟩, ⟨.OutCell, 0⟩] := by decide
  rw [compile_eq, h1, squash_run_then_other .IncCell rfl n (⟨.JumpFwd, 0⟩ : ins) rfl, h2]
  simp [unit_of, annotate, annotate_forward, annotate_backward,
    annotate_forward_body, annotate_backward_body, List.range_succ]

/-! ## The claims -/

/-- C1. For every source with balanced brackets (of a length that fits `size_t`, as the
size of every `std::vector` does) and every input stream, `annotate` succeeds on
`translate source` and on `optimise (translate source)`; the executor loop started from
the initial state halts on the first program if and only if it halts on the second, and
when both halt they have written the same output and end with the same tape. -/
theorem optimise_preserves_semantics (source : List Char) (stdin : List Nat)
    (hb : balanced (translate source)) (hlen : source.length < 18446744073709551616) :
    ∃ P O Q, annotate (translate source) = some P ∧ optimise (translate source) = some O ∧
      annotate O = some Q ∧
      ((∃ fuel t, exec_loop P fuel (initial stdin) = .halted t) ↔
        (∃ fuel t, exec_loop Q fuel (initial stdin) = .halted t)) ∧
      ∀ fuel1 fuel2 t1 t2, exec_loop P fuel1 (initial stdin) = .halted t1 →
        exec_loop Q fuel2 (initial stdin) = .halted t2 →
        t1.output = t2.output ∧ t1.tape = t2.tape := by
  have hu := translate_unit source
  obtain ⟨P, hP, -, -⟩ := annotate_spec (translate source) hb
  obtain ⟨Q, hQ, -, -⟩ := annotate_spec (squash (translate source))
    (balanced_squash _ hu hb)
  have hal := aligned_of_annotate (translate source) P Q hu hb
    (Nat.lt_of_le_of_lt (translate_length_le source) hlen) hP hQ
  exact ⟨P, squash (translate source), Q, hP, optimise_eq _, hQ,
    aligned_runs P Q _ hal stdin⟩

/-- Witness of C1: the hypotheses of `optimise_preserves_semantics` hold on a concrete input. -/
theorem optimise_preserves_semantics_witness :
    ∃ P O Q, annotate (translate ['+', '+', '[', '-', '>', '+', '+', '<', ']', '>', '.']) =
        some P ∧
      optimise (translate ['+', '+', '[', '-', '>', '+', '+', '<', ']', '>', '.']) = some O ∧
      annotate O = some Q ∧
      ((∃ fuel t, exec_loop P fuel (initial [7]) = .halted t) ↔
        (∃ fuel t, exec_loop Q fuel (initial [7]) = .halted t)) ∧
      ∀ fuel1 fuel2 t1 t2, exec_loop P fuel1 (initial [7]) = .halted t1 →
        exec_loop Q fuel2 (initial [7]) = .halted t2 →
        t1.output = t2.output ∧ t1.tape = t2.tape :=
  optimise_preserves_semantics ['+', '+', '[', '-', '>', '+', '+', '<', ']', '>', '.'] [7]
    (by decide) (by decide)

/-- C2. For every balanced program `p`, `annotate p` returns a program `q` of the same
length as `p` carrying the same command as `p` at every index, in which every `JumpFwd` at
an index `i` carries an index `j` with `i < j`, the instruction at `j` is the `JumpBwd`
carrying `i`, `j` is the syntactically matching close of `i` in `p`, and the instructions
strictly between `i` and `j`, of `p` as of `q`, are balanced; conversely every `JumpBwd` at
`j` carrying `i` has at `i` the `JumpFwd` carrying `j`, its syntactic match in `p`.  On
`[+[]]` the operands are `4`, `3`, `2` and `0`. -/
theorem annotate_matches_brackets (p : List ins) (hp : balanced p) :
    ∃ q, annotate p = some q ∧ q.length = p.length ∧ q.map ins.com = p.map ins.com ∧
      (∀ (i : Nat) (d : Int), q[i]? = some ⟨.JumpFwd, d⟩ →
        ∃ j : Nat, d = (j : Int) ∧ i < j ∧ q[j]? = some ⟨.JumpBwd, (i : Int)⟩ ∧
          matching p i j ∧
          balanced ((p.drop (i + 1)).take (j - i - 1)) ∧
          balanced ((q.drop (i + 1)).take (j - i - 1))) ∧
      (∀ (j : Nat) (d : Int), q[j]? = some ⟨.JumpBwd, d⟩ →
        ∃ i : Nat, d = (i : Int) ∧ q[i]? = some ⟨.JumpFwd, (j : Int)⟩ ∧ matching p i j) ∧
      annotate (translate ['[', '+', '[', ']', ']']) =
        some [⟨.JumpFwd, 4⟩, ⟨.IncCell, 1⟩, ⟨.JumpFwd, 3⟩, ⟨.JumpBwd, 2⟩, ⟨.JumpBwd, 0⟩] := by
  obtain ⟨q, hq, hcom, hel⟩ := annotate_spec p hp
  refine ⟨q, hq, by simpa using congrArg List.length hcom, hcom, fun i d hi => ?_,
    fun j d hj => ?_, by decide⟩
  · obtain ⟨j, hd, hm⟩ := (hel i _ hi).1 rfl
    have hbp := bracket_pair_bounds _ _ _ _ _ hm
    have hb := hbp
    rw [← hcom] at hb
    obtain ⟨d2, hd2⟩ := getElem?_of_map_com q j _ hb.2.2.2.1
    obtain ⟨i2, hd3, hm2⟩ := (hel j _ hd2).2.1 rfl
    have hii : i2 = i := bracket_pair_unique_left _ _ _ _ _ _ hm2 hm
    subst hii
    simp only at hd3 hd
    refine ⟨j, hd, hb.1, by rw [hd2, hd3], hm, ?_, ?_⟩
    · unfold balanced
      rw [List.map_take, List.map_drop]
      exact hbp.2.2.2.2
    · unfold balanced
      rw [List.map_take, List.map_drop]
      exact hb.2.2.2.2
  · obtain ⟨i, hd, hm⟩ := (hel j _ hj).2.1 rfl
    have hb := bracket_pair_bounds _ _ _ _ _ hm
    rw [← hcom] at hb
    obtain ⟨d2, hd2⟩ := getElem?_of_map_com q i _ hb.2.2.1
    obtain ⟨j2, hd3, hm2⟩ := (hel i _ hd2).1 rfl
    have hjj : j2 = j := bracket_pair_unique_right _ _ (by decide) _ _ _ _ hm2 hm
    subst hjj
    simp only at hd3 hd
    exact ⟨i, hd, by rw [hd2, hd3], hm⟩

/-- Witness of C2: the translation of `[+[]]` is balanced. -/
theorem annotate_matches_brackets_witness :
    ∃ q, annotate (translate ['[', '+', '[', ']', ']']) = some q ∧
      q.length = (translate ['[', '+', '[', ']', ']']).length ∧
      q.map ins.com = (translate ['[', '+', '[', ']', ']']).map ins.com ∧
      (∀ (i : Nat) (d : Int), q[i]? = some ⟨.JumpFwd, d⟩ →
        ∃ j : Nat, d = (j : Int) ∧ i < j ∧ q[j]? = some ⟨.JumpBwd, (i : Int)⟩ ∧
          matching (translate ['[', '+', '[', ']', ']']) i j ∧
          balanced (((translate ['[', '+', '[', ']', ']']).drop (i + 1)).take (j - i - 1)) ∧
          balanced ((q.drop (i + 1)).take (j - i - 1))) ∧
      (∀ (j : Nat) (d : Int), q[j]? = some ⟨.JumpBwd, d⟩ →
        ∃ i : Nat, d = (i : Int) ∧ q[i]? = some ⟨.JumpFwd, (j : Int)⟩ ∧
          matching (translate ['[', '+', '[', ']', ']']) i j) ∧
      annotate (translate ['[', '+', '[', ']', ']']) =
        some [⟨.JumpFwd, 4⟩, ⟨.IncCell, 1⟩, ⟨.JumpFwd, 3⟩, ⟨.JumpBwd, 2⟩, ⟨.JumpBwd, 0⟩] :=
  annotate_matches_brackets (translate ['[', '+', '[', ']', ']']) (by decide)

/-- C3, as stated, fails on the sources `><` and `+-`: the optimised program keeps two
instructions, of magnitudes `+1` and `-1`, and is not one instruction of magnitude `0`. -/
theorem optimise_mixed_run_counterexample :
    optimise (translate ['>', '<']) = some [⟨.IncDptr, 1⟩, ⟨.DecDptr, -1⟩] ∧
      optimise (translate ['+', '-']) = some [⟨.IncCell, 1⟩, ⟨.DecCell, -1⟩] ∧
      ¬ (∃ r, optimise (translate ['>', '<']) = some r ∧ r.length = 1) ∧
      ¬ (∃ r, optimise (translate ['+', '-']) = some r ∧ r.length = 1) := by
  have h1 : optimise (translate ['>', '<']) = some [⟨.IncDptr, 1⟩, ⟨.DecDptr, -1⟩] := by decide
  have h2 : optimise (translate ['+', '-']) = some [⟨.IncCell, 1⟩, ⟨.DecCell, -1⟩] := by decide
  refine ⟨h1, h2, ?_, ?_⟩
  · rintro ⟨r, hr, hlen⟩
    rw [h1] at hr
    cases hr
    simp at hlen
  · rintro ⟨r, hr, hlen⟩
    rw [h2] at hr
    cases hr
    simp at hlen

/-- C3, amended. Let `s2` translate to a non-empty run of pointer moves (any mix of `>`
and `<`) or of cell additions (any mix of `+` and `-`) that is maximal between `s1` and
`s3`.  Then `optimise` works on the three parts separately; the run becomes one
instruction per maximal sub-run of one and the same command (`coalesce_runs`), none of
magnitude `0`, and the magnitudes sum to the number of increments minus the number of
decrements of the run.  The sources `><` and `+-` give two instructions each. -/
theorem optimise_folds_runs_per_command (s1 s2 s3 : List Char)
    (hrun : (∀ x ∈ translate s2, kind_of x.com = kind.MovePointer) ∨
      (∀ x ∈ translate s2, kind_of x.com = kind.AddToCell))
    (hne : translate s2 ≠ [])
    (hpre : ∀ x ∈ (translate s1).getLast?, ∀ y ∈ translate s2, kind_of x.com ≠ kind_of y.com)
    (hpost : ∀ y ∈ (translate s3).head?, ∀ x ∈ translate s2, kind_of x.com ≠ kind_of y.com) :
    ∃ r1 r2 r3, optimise (translate s1) = some r1 ∧ optimise (translate s2) = some r2 ∧
      optimise (translate s3) = some r3 ∧
      optimise (translate (s1 ++ s2 ++ s3)) = some (r1 ++ r2 ++ r3) ∧
      r2 = coalesce_runs (translate s2) ∧
      (r2.map ins.data).sum =
        (increments (translate s2) : Int) - (decrements (translate s2) : Int) ∧
      (∀ x ∈ r2, x.data ≠ 0) ∧
      optimise (translate ['>', '<']) = some [⟨.IncDptr, 1⟩, ⟨.DecDptr, -1⟩] ∧
      optimise (translate ['+', '-']) = some [⟨.IncCell, 1⟩, ⟨.DecCell, -1⟩] := by
  refine ⟨squash (translate s1), squash (translate s2), squash (translate s3),
    optimise_eq _, optimise_eq _, optimise_eq _, ?_, ?_, ?_, ?_, by decide, by decide⟩
  · rw [optimise_eq, translate_append, translate_append, List.append_assoc,
      squash_append, squash_append, List.append_assoc]
    · intro x hx y hy
      exact kind_ne_not_merges x y (hpost y hy x (List.mem_of_mem_getLast? hx))
    · intro x hx y hy
      have hy2 : y ∈ translate s2 := by
        cases h2 : translate s2 with
        | nil => exact absurd h2 hne
        | cons z t =>
          rw [h2] at hy
          simp only [List.cons_append, List.head?_cons, Option.mem_def, Option.some.injEq] at hy
          simp [hy]
      exact kind_ne_not_merges x y (hpre x hx y hy2)
  · exact squash_eq_coalesce_runs _ _ (Nat.le_refl _) (translate_unit s2)
  · rw [squash_sum _ (translate_unit s2), units_sum _ (translate_unit s2)]
  · intro x hx h0
    obtain ⟨y, hy, hyx⟩ := squash_mem_com _ x hx
    have hm : mergeable x.com = true := by
      rw [← hyx]
      rcases hrun with h | h
      · have := h y hy
        revert this; cases y.com <;> simp [kind_of, mergeable]
      · have := h y hy
        revert this; cases y.com <;> simp [kind_of, mergeable]
    have := squash_sign _ (translate_unit s2) x hx hm
    rw [h0] at this
    simp at this

/-- Witness of C3: the hypotheses of `optimise_folds_runs_per_command` hold on a concrete input. -/
theorem optimise_folds_runs_per_command_witness :
    ∃ r1 r2 r3, optimise (translate ['.', '+']) = some r1 ∧
      optimise (translate ['>', '>', '<']) = some r2 ∧
      optimise (translate ['+']) = some r3 ∧
      optimise (translate (['.', '+'] ++ ['>', '>', '<'] ++ ['+'])) = some (r1 ++ r2 ++ r3) ∧
      r2 = coalesce_runs (translate ['>', '>', '<']) ∧
      (r2.map ins.data).sum =
        (increments (translate ['>', '>', '<']) : Int) -
          (decrements (translate ['>', '>', '<']) : Int) ∧
      (∀ x ∈ r2, x.data ≠ 0) ∧
      optimise (translate ['>', '<']) = some [⟨.IncDptr, 1⟩, ⟨.DecDptr, -1⟩] ∧
      optimise (translate ['+', '-']) = some [⟨.IncCell, 1⟩, ⟨.DecCell, -1⟩] :=
  optimise_folds_runs_per_command ['.', '+'] ['>', '>', '<'] ['+']
    (Or.inl (by decide)) (by decide) (by decide) (by decide)

/-- C4. For every source, `optimise (translate source)` returns `translate source` with
each maximal run of `n` identical instructions of one of the commands `>`, `<`, `+`, `-`
replaced by one instruction of that command with data `+n` or `-n`, the other
instructions staying in place. -/
theorem optimise_coalesces_runs (source : List Char) :
    optimise (translate source) = some (coalesce_runs (translate source)) := by
  rw [optimise_eq, squash_eq_coalesce_runs _ _ (Nat.le_refl _) (translate_unit source)]

/-- C5. For every source, `translate source` is, in source order, one instruction per
recognised character (`+1` for `>` and `+`, `-1` for `<` and `-`, `0` for `.`, `,`, `[`
and `]`) and nothing for any other character; its length is the number of recognised
characters and the empty source gives the empty program. -/
theorem translate_mapping (source : List Char) :
    translate source = source.filterMap instruction_of ∧
      (translate source).length = source.countP recognised ∧
      translate [] = [] := by
  refine ⟨translate_eq source, ?_, rfl⟩
  rw [translate_eq, length_filterMap_instruction_of]

/-- C6. For every program `p`, `optimise p` returns a program on which `optimise` is the
identity: optimising twice is the same as optimising once. -/
theorem optimise_idempotent (p : List ins) :
    ∃ r, optimise p = some r ∧ optimise r = some r :=
  ⟨squash p, optimise_eq p, by rw [optimise_eq, squash_idem]⟩

/-- C7. For every source, `optimise (translate source)` returns a program that is not
longer than `translate source`. -/
theorem optimise_never_lengthens (source : List Char) :
    ∃ r, optimise (translate source) = some r ∧ r.length ≤ (translate source).length :=
  ⟨_, optimise_eq _, squash_length_le _⟩

/-- C8, as stated, fails on the source `><`: the optimised program has the length of the
translation although its two instructions share the kind MovePointer. -/
theorem length_equality_by_kind_counterexample :
    ∃ r, optimise (translate ['>', '<']) = some r ∧
      ¬ (r.length = (translate ['>', '<']).length ↔
        List.Chain' (fun a b => ¬ shares_mergeable_kind a b) (translate ['>', '<'])) :=
  ⟨[⟨.IncDptr, 1⟩, ⟨.DecDptr, -1⟩], by decide, by
    have h : translate ['>', '<'] = [⟨.IncDptr, 1⟩, ⟨.DecDptr, -1⟩] := by decide
    simp [h, shares_mergeable_kind, kind_of]⟩

/-- C8, amended. For every source, `optimise (translate source)` has the length of
`translate source` if and only if `translate source` has no two adjacent instructions
carrying one and the same command among `>`, `<`, `+`, `-`. -/
theorem optimise_length_eq_iff (source : List Char) :
    ∃ r, optimise (translate source) = some r ∧
      (r.length = (translate source).length ↔
        List.Chain' (fun a b => ¬ merges a b) (translate source)) :=
  ⟨_, optimise_eq _, squash_length_eq_iff _⟩

/-- C9. For every program `p`, the output, input and jump instructions of `optimise p`
are those of `p`: same number, same order, same command and data; in particular two
adjacent `.` or two adjacent `[` stay two instructions. -/
theorem optimise_passes_through (p : List ins) :
    ∃ r, optimise p = some r ∧
      r.filter (fun x => passes_through x.com) = p.filter (fun x => passes_through x.com) ∧
      optimise (translate ['.', '.']) = some [⟨.OutCell, 0⟩, ⟨.OutCell, 0⟩] ∧
      optimise (translate ['[', '[']) = some [⟨.JumpFwd, 0⟩, ⟨.JumpFwd, 0⟩] := by
  refine ⟨_, optimise_eq p, ?_, by decide, by decide⟩
  simp only [passes_through_eq]
  exact squash_filter p

/-- C11. For every `n` and `m`, the run of `main` on the source made of `n` characters
`+`, a `.`, `m` characters `-` and a `.`, with no input, halts after at most four
iterations of the executor loop, having written exactly two bytes: `n mod 256`, then
`(n - m) mod 256`.  For `n = m = 3` the bytes are `3` and `0`; for `n = 0`, `m = 1` the
second byte is `255`. -/
theorem plus_dot_minus_dot_output (n m fuel : Nat) :
    (∃ s, main (List.replicate n '+' ++ ['.'] ++ List.replicate m '-' ++ ['.']) []
        (fuel + 4) = .halted s ∧
      s.output = [n % 256, (((n : Int) - (m : Int)) % 256).toNat]) ∧
      (∃ s, main ['+', '+', '+', '.', '-', '-', '-', '.'] [] (fuel + 4) = .halted s ∧
        s.output = [3, 0]) ∧
      ∃ s, main ['.', '-', '.'] [] (fuel + 4) = .halted s ∧ s.output = [0, 255] :=
  ⟨plus_dot_minus_dot_run n m fuel, plus_dot_minus_dot_run 3 3 fuel,
    plus_dot_minus_dot_run 0 1 fuel⟩

/-- C12. For every byte `b` (a value below 256) at the head of the input, the run of
`main` on the source `,.` halts after two iterations of the executor loop, having written
exactly the byte `b`, with tape cell `0` equal to `b` and every other cell `0`. -/
theorem echo_output (b : Nat) (rest : List Nat) (fuel : Nat) (hb : b < 256) :
    ∃ s, main [',', '.'] (b :: rest) (fuel + 2) = .halted s ∧ s.output = [b] ∧
      s.tape 0 = b ∧ ∀ k, k ≠ 0 → s.tape k = 0 := by
  have hcell : to_cell ((b : Int) % 256) = b := by
    unfold to_cell
    omega
  refine ⟨⟨2, 0, tape_set (fun _ => 0) 0 b, rest, [b]⟩, ?_, rfl, by simp [tape_set],
    fun k hk => by simp [tape_set, hk]⟩
  simp only [main, compile_comma_dot]
  rw [exec_loop_step [⟨.InpCell, 0⟩, ⟨.OutCell, 0⟩] _ (initial (b :: rest))
    ⟨1, 0, tape_set (fun _ => 0) 0 b, rest, []⟩ ⟨.InpCell, 0⟩ rfl
    (by simp [exec_step, exec_switch, initial, TAPE_SIZE, hcell])]
  rw [exec_loop_step [⟨.InpCell, 0⟩, ⟨.OutCell, 0⟩] _
    ⟨1, 0, tape_set (fun _ => 0) 0 b, rest, []⟩
    ⟨2, 0, tape_set (fun _ => 0) 0 b, rest, [b]⟩ ⟨.OutCell, 0⟩ rfl
    (by simp [exec_step, exec_switch, TAPE_SIZE, tape_set, Nat.mod_eq_of_lt hb])]
  exact exec_loop_halted _ _ _ (by simp)

/-- Witness of C12: the byte `65` is echoed. -/
theorem echo_output_witness :
    ∃ s, main [',', '.'] (65 :: []) (0 + 2) = .halted s ∧ s.output = [65] ∧
      s.tape 0 = 65 ∧ ∀ k, k ≠ 0 → s.tape k = 0 :=
  echo_output 65 [] 0 (by decide)

/-- C13. For every source `[` `B` `]` whose body `B` has balanced brackets (the source
being of a length that fits `size_t`), the run of `main` halts after a single iteration of
the executor loop, the jump over the loop: nothing is written, nothing is read from the
input, the tape is all zero and the data pointer is `0`. -/
theorem loop_on_zero_skipped (B : List Char) (stdin : List Nat) (fuel : Nat)
    (hb : balanced (translate B)) (hlen : B.length + 2 < 18446744073709551616) :
    ∃ s, main ('[' :: B ++ [']']) stdin (fuel + 1) = .halted s ∧ s.output = [] ∧
      s.input = stdin ∧ s.tape = (fun _ => 0) ∧ s.dptr = 0 := by
  obtain ⟨q, hq, hql, hq0⟩ := compile_loop_skipped B hb
  have hle : (squash (translate B)).length ≤ B.length :=
    Nat.le_trans (squash_length_le _) (translate_length_le B)
  have h1 : to_size_t (((squash (translate B)).length : Int) + 1) =
      (squash (translate B)).length + 1 := by
    have := to_size_t_cast ((squash (translate B)).length + 1) (by omega)
    push_cast at this
    exact this
  have h2 : ((squash (translate B)).length + 1 + 1) % 18446744073709551616 =
      (squash (translate B)).length + 1 + 1 := Nat.mod_eq_of_lt (by omega)
  refine ⟨⟨(squash (translate B)).length + 1 + 1, 0, fun _ => 0, stdin, []⟩, ?_, rfl, rfl,
    rfl, rfl⟩
  simp only [main, hq]
  rw [exec_loop_step q _ (initial stdin)
    ⟨(squash (translate B)).length + 1 + 1, 0, fun _ => 0, stdin, []⟩ _ hq0
    (by simp [exec_step, exec_switch, initial, TAPE_SIZE, h1, h2])]
  exact exec_loop_halted _ _ _ (by simp only [hql]; omega)

/-- Witness of C13: the source `[+]`. -/
theorem loop_on_zero_skipped_witness :
    ∃ s, main ('[' :: ['+'] ++ [']']) [] (0 + 1) = .halted s ∧ s.output = [] ∧
      s.input = [] ∧ s.tape = (fun _ => 0) ∧ s.dptr = 0 :=
  loop_on_zero_skipped ['+'] [] 0 (by decide) (by decide)

/-- C14. For every program `p`, `annotate p` reads the top of an empty stack, in
`annotate_forward` or, once that pass has succeeded, in `annotate_backward`, if and only
if the `[` and `]` of `p` are not properly nested and balanced; a lone `[` underflows in
the forward pass and a lone `]` in the backward pass. -/
theorem annotate_underflow_iff (p : List ins) :
    (annotate p = none ↔ ¬ balanced p) ∧
      ((annotate_forward p = none ∨
          ∃ p1, annotate_forward p = some p1 ∧ annotate_backward p1 = none) ↔ ¬ balanced p) ∧
      annotate_forward (translate ['[']) = none ∧
      (∃ p1, annotate_forward (translate [']']) = some p1 ∧ annotate_backward p1 = none) := by
  have key : annotate p = none ↔ ¬ balanced p := by
    constructor
    · intro h hb
      obtain ⟨q, hq, -⟩ := annotate_spec p hb
      rw [h] at hq
      exact Option.noConfusion hq
    · intro h
      cases hq : annotate p with
      | none => rfl
      | some q => exact absurd (balanced_of_annotate p q hq) h
  refine ⟨key, ?_, by decide, ⟨[⟨.JumpBwd, 0⟩], by decide, by decide⟩⟩
  rw [← key]
  unfold annotate
  cases annotate_forward p with
  | none => simp
  | some p1 => simp

/-- C15. For every source with balanced brackets, `compile source` returns a program `q`,
the annotation of the optimised program `O`; `optimise` has kept the sequence of jump,
input and output instructions of the translation; and in `q` the operand of every jump is
an index below the length of `q`, the index of its matching partner within `O`, where the
partner carries the index of the jump in return.  On `++[--]` the operands are `3` and
`1`, whereas the translation annotated without `optimise` carries `5` and `2`. -/
theorem compile_jump_targets (source : List Char) (hb : balanced (translate source)) :
    ∃ O q, optimise (translate source) = some O ∧ compile source = some q ∧
      annotate O = some q ∧
      O.filter (fun x => passes_through x.com) =
        (translate source).filter (fun x => passes_through x.com) ∧
      (∀ (k : Nat) (d : Int), q[k]? = some ⟨.JumpFwd, d⟩ →
        ∃ j : Nat, d = (j : Int) ∧ j < q.length ∧ matching O k j ∧
          q[j]? = some ⟨.JumpBwd, (k : Int)⟩) ∧
      (∀ (k : Nat) (d : Int), q[k]? = some ⟨.JumpBwd, d⟩ →
        ∃ i : Nat, d = (i : Int) ∧ i < q.length ∧ matching O i k ∧
          q[i]? = some ⟨.JumpFwd, (k : Int)⟩) ∧
      compile ['+', '+', '[', '-', '-', ']'] =
        some [⟨.IncCell, 2⟩, ⟨.JumpFwd, 3⟩, ⟨.DecCell, -2⟩, ⟨.JumpBwd, 1⟩] ∧
      annotate (translate ['+', '+', '[', '-', '-', ']']) =
        some [⟨.IncCell, 1⟩, ⟨.IncCell, 1⟩, ⟨.JumpFwd, 5⟩, ⟨.DecCell, -1⟩, ⟨.DecCell, -1⟩,
          ⟨.JumpBwd, 2⟩] := by
  have hu := translate_unit source
  have hbO := balanced_squash _ hu hb
  obtain ⟨q, hq, hcom, hel⟩ := annotate_spec _ hbO
  have hlen : q.length = (squash (translate source)).length := by
    simpa using congrArg List.length hcom
  refine ⟨squash (translate source), q, optimise_eq _, by rw [compile_eq, hq], hq, ?_,
    fun k d hk => ?_, fun k d hk => ?_, by decide, by decide⟩
  · simp only [passes_through_eq]
    exact squash_filter _
  · obtain ⟨j, e, m⟩ := (hel k _ hk).1 rfl
    have hbd := bracket_pair_bounds _ _ _ _ _ m
    refine ⟨j, e, ?_, m, (annotate_complete _ q hbO hq k j m).2⟩
    have := hbd.2.1
    simp only [List.length_map] at this
    omega
  · obtain ⟨i, e, m⟩ := (hel k _ hk).2.1 rfl
    have hbd := bracket_pair_bounds _ _ _ _ _ m
    refine ⟨i, e, ?_, m, (annotate_complete _ q hbO hq i k m).1⟩
    have := hbd.2.1
    simp only [List.length_map] at this
    omega

/-- Witness of C15: the translation of `++[--]` is balanced. -/
theorem compile_jump_targets_witness :
    ∃ O q, optimise (translate ['+', '+', '[', '-', '-', ']']) = some O ∧
      compile ['+', '+', '[', '-', '-', ']'] = some q ∧ annotate O = some q ∧
      O.filter (fun x => passes_through x.com) =
        (translate ['+', '+', '[', '-', '-', ']']).filter (fun x => passes_through x.com) ∧
      (∀ (k : Nat) (d : Int), q[k]? = some ⟨.JumpFwd, d⟩ →
        ∃ j : Nat, d = (j : Int) ∧ j < q.length ∧ matching O k j ∧
          q[j]? = some ⟨.JumpBwd, (k : Int)⟩) ∧
      (∀ (k : Nat) (d : Int), q[k]? = some ⟨.JumpBwd, d⟩ →
        ∃ i : Nat, d = (i : Int) ∧ i < q.length ∧ matching O i k ∧
          q[i]? = some ⟨.JumpFwd, (k : Int)⟩) ∧
      compile ['+', '+', '[', '-', '-', ']'] =
        some [⟨.IncCell, 2⟩, ⟨.JumpFwd, 3⟩, ⟨.DecCell, -2⟩, ⟨.JumpBwd, 1⟩] ∧
      annotate (translate ['+', '+', '[', '-', '-', ']']) =
        some [⟨.IncCell, 1⟩, ⟨.IncCell, 1⟩, ⟨.JumpFwd, 5⟩, ⟨.DecCell, -1⟩, ⟨.DecCell, -1⟩,
          ⟨.JumpBwd, 2⟩] :=
  compile_jump_targets ['+', '+', '[', '-', '-', ']'] (by decide)

/-- C16, as stated, fails on the first step of the compiled program of `[]`, a taken
`JumpFwd` with target `1` from the initial state: after the step the instruction pointer
is `2`, not the target `1`. -/
theorem taken_jump_counterexample :
    compile ['[', ']'] = some [⟨.JumpFwd, 1⟩, ⟨.JumpBwd, 0⟩] ∧
      ∃ t, exec_step ⟨.JumpFwd, 1⟩ (initial []) = some t ∧ t.iptr = 2 ∧ t.iptr ≠ 1 :=
  ⟨by decide, ⟨2, 0, fun _ => 0, [], []⟩,
    by simp [exec_step, exec_switch, initial, TAPE_SIZE, to_size_t], rfl, by decide⟩

/-- C16, amended. In a state whose addressed cell is inside the tape, a taken jump
(`JumpFwd` on a zero cell, `JumpBwd` on a non-zero cell) whose target is an index leaves
the instruction pointer equal to target + 1, the `iptr++` of the loop following the
assignment; a jump that is not taken advances the instruction pointer by exactly 1.
Nothing else of the state changes. -/
theorem jump_step (s : State) (target : Nat) (hd : s.dptr < TAPE_SIZE)
    (ht : target + 1 < 18446744073709551616) (hi : s.iptr + 1 < 18446744073709551616) :
    (s.tape s.dptr = 0 → exec_step ⟨.JumpFwd, (target : Int)⟩ s =
        some ⟨target + 1, s.dptr, s.tape, s.input, s.output⟩) ∧
      (s.tape s.dptr ≠ 0 → exec_step ⟨.JumpBwd, (target : Int)⟩ s =
        some ⟨target + 1, s.dptr, s.tape, s.input, s.output⟩) ∧
      (s.tape s.dptr ≠ 0 → exec_step ⟨.JumpFwd, (target : Int)⟩ s =
        some ⟨s.iptr + 1, s.dptr, s.tape, s.input, s.output⟩) ∧
      (s.tape s.dptr = 0 → exec_step ⟨.JumpBwd, (target : Int)⟩ s =
        some ⟨s.iptr + 1, s.dptr, s.tape, s.input, s.output⟩) := by
  have h1 : to_size_t (target : Int) = target := to_size_t_cast target (by omega)
  have h2 : (target + 1) % 18446744073709551616 = target + 1 := Nat.mod_eq_of_lt ht
  have h3 : (s.iptr + 1) % 18446744073709551616 = s.iptr + 1 := Nat.mod_eq_of_lt hi
  refine ⟨fun hz => ?_, fun hz => ?_, fun hz => ?_, fun hz => ?_⟩ <;>
    simp [exec_step, exec_switch, hd, hz, h1, h2, h3]

/-- Witness of C16: the hypotheses of `jump_step` hold on a concrete input. -/
theorem jump_step_witness :
    ((initial []).tape (initial []).dptr = 0 → exec_step ⟨.JumpFwd, ((5 : Nat) : Int)⟩ (initial []) =
        some ⟨5 + 1, (initial []).dptr, (initial []).tape, (initial []).input,
          (initial []).output⟩) ∧
      ((initial []).tape (initial []).dptr ≠ 0 →
        exec_step ⟨.JumpBwd, ((5 : Nat) : Int)⟩ (initial []) =
        some ⟨5 + 1, (initial []).dptr, (initial []).tape, (initial []).input,
          (initial []).output⟩) ∧
      ((initial []).tape (initial []).dptr ≠ 0 →
        exec_step ⟨.JumpFwd, ((5 : Nat) : Int)⟩ (initial []) =
        some ⟨(initial []).iptr + 1, (initial []).dptr, (initial []).tape, (initial []).input,
          (initial []).output⟩) ∧
      ((initial []).tape (initial []).dptr = 0 →
        exec_step ⟨.JumpBwd, ((5 : Nat) : Int)⟩ (initial []) =
        some ⟨(initial []).iptr + 1, (initial []).dptr, (initial []).tape, (initial []).input,
          (initial []).output⟩) :=
  jump_step (initial []) 5 (by decide) (by decide) (by decide)

/-- C17. The `throw` of `optimise` is unreachable: whatever `result` holds, an iteration
of the loop on an instruction of one of the eight commands returns a new `result`, and
`optimise` returns a program on every program, in particular on every `translate source`. -/
theorem optimise_never_throws (p : List ins) (source : List Char) :
    (∀ (result : List ins) (i : ins), ∃ r, optimise_body result i = some r) ∧
      (∃ r, optimise p = some r) ∧ ∃ r, optimise (translate source) = some r :=
  ⟨optimise_body_total, ⟨_, optimise_eq p⟩, ⟨_, optimise_eq _⟩⟩

/-- C18. For every balanced program `p`, `annotate p` returns a program of the same
length, with the same command at every index and the same instruction at every index that
holds no jump; and every program that differs from `p` only in the data of its jump
instructions is annotated to the same result. -/
theorem annotate_frame (p : List ins) (hp : balanced p) :
    ∃ q, annotate p = some q ∧ q.length = p.length ∧ q.map ins.com = p.map ins.com ∧
      (∀ (k : Nat) (x : ins), p[k]? = some x → x.com ≠ .JumpFwd → x.com ≠ .JumpBwd → q[k]? = some x) ∧
      ∀ p2 : List ins, p2.map ins.com = p.map ins.com →
        (∀ (k : Nat) (x : ins), p[k]? = some x → x.com ≠ .JumpFwd → x.com ≠ .JumpBwd → p2[k]? = some x) →
        annotate p2 = some q := by
  obtain ⟨q, hq, hcom, hel⟩ := annotate_spec p hp
  refine ⟨q, hq, by simpa using congrArg List.length hcom, hcom,
    fun k x hx h1 h2 => annotate_other p q hp hq k x hx h1 h2, fun p2 hcom2 hsame => ?_⟩
  have hp2 : balanced p2 := by unfold balanced at hp ⊢; rw [hcom2]; exact hp
  obtain ⟨q2, hq2, hcomq2, hel2⟩ := annotate_spec p2 hp2
  rw [hq2]
  congr 1
  apply List.ext_getElem?
  intro k
  cases hc : (p.map ins.com)[k]? with
  | none =>
    have hk : p.length ≤ k := by simpa using hc
    have e1 : q2.length = p.length := by
      have := congrArg List.length (hcomq2.trans hcom2); simpa using this
    have e2 : q.length = p.length := by simpa using congrArg List.length hcom
    rw [List.getElem?_eq_none (by omega), List.getElem?_eq_none (by omega)]
  | some c =>
    obtain ⟨d, hd⟩ := getElem?_of_map_com q k c (by rw [hcom]; exact hc)
    obtain ⟨d2, hd2⟩ := getElem?_of_map_com q2 k c (by rw [hcomq2, hcom2]; exact hc)
    rw [hd, hd2]
    by_cases hF : c = .JumpFwd
    · subst hF
      obtain ⟨j, e, m⟩ := (hel k _ hd).1 rfl
      obtain ⟨j2, e2, m2⟩ := (hel2 k _ hd2).1 rfl
      have m3 := (matching_congr p p2 hcom2 k j2).mp m2
      have := bracket_pair_unique_right _ _ (by decide) _ _ _ _ m m3
      subst this
      simp only at e e2
      rw [e, e2]
    · by_cases hB : c = .JumpBwd
      · subst hB
        obtain ⟨i, e, m⟩ := (hel k _ hd).2.1 rfl
        obtain ⟨i2, e2, m2⟩ := (hel2 k _ hd2).2.1 rfl
        have m3 := (matching_congr p p2 hcom2 i2 k).mp m2
        have := bracket_pair_unique_left _ _ _ _ _ _ m m3
        subst this
        simp only at e e2
        rw [e, e2]
      · have h1 := (hel k _ hd).2.2 hF hB
        have h2 := (hel2 k _ hd2).2.2 hF hB
        have h3 := hsame k _ h1 hF hB
        rw [h2] at h3
        exact h3

/-- Witness of C18: the translation of `[+[]]` is balanced. -/
theorem annotate_frame_witness :
    ∃ q, annotate (translate ['[', '+', '[', ']', ']']) = some q ∧
      q.length = (translate ['[', '+', '[', ']', ']']).length ∧
      q.map ins.com = (translate ['[', '+', '[', ']', ']']).map ins.com ∧
      (∀ (k : Nat) (x : ins), (translate ['[', '+', '[', ']', ']'])[k]? = some x → x.com ≠ .JumpFwd →
        x.com ≠ .JumpBwd → q[k]? = some x) ∧
      ∀ p2 : List ins, p2.map ins.com = (translate ['[', '+', '[', ']', ']']).map ins.com →
        (∀ (k : Nat) (x : ins), (translate ['[', '+', '[', ']', ']'])[k]? = some x → x.com ≠ .JumpFwd →
          x.com ≠ .JumpBwd → p2[k]? = some x) →
        annotate p2 = some q :=
  annotate_frame (translate ['[', '+', '[', ']', ']']) (by decide)

/-- C19. For every `n`, the source made of `n` characters `+` followed by `[-].` compiles
to a program whose run, with no input, halts after a fixed number of iterations of the
executor loop, having written exactly one byte, of value `0`; during the run the loop
body, the `DecCell` instruction, is executed exactly `n mod 256` times. -/
theorem clear_loop_terminates (n : Nat) :
    ∃ P s steps, compile (List.replicate n '+' ++ ['[', '-', ']', '.']) = some P ∧
      s.output = [0] ∧
      ∀ fuel, main (List.replicate n '+' ++ ['[', '-', ']', '.']) [] (fuel + steps) =
          .halted s ∧
        dec_cell_runs P (exec_trace P (fuel + steps) (initial [])) = n % 256 := by
  cases n with
  | zero =>
    have hc : compile (List.replicate 0 '+' ++ ['[', '-', ']', '.']) =
        some [⟨.JumpFwd, 2⟩, ⟨.DecCell, -1⟩, ⟨.JumpBwd, 0⟩, ⟨.OutCell, 0⟩] := by decide
    have s1 : exec_step ⟨.JumpFwd, 2⟩ (initial []) = some ⟨3, 0, fun _ => 0, [], []⟩ := by
      simp [exec_step, exec_switch, initial, TAPE_SIZE, to_size_t]
    have s2 : exec_step ⟨.OutCell, 0⟩ ⟨3, 0, fun _ => 0, [], []⟩ =
        some ⟨4, 0, fun _ => 0, [], [0]⟩ := by
      simp [exec_step, exec_switch, TAPE_SIZE]
    refine ⟨_, ⟨4, 0, fun _ => 0, [], [0]⟩, 2, hc, rfl, fun fuel => ⟨?_, ?_⟩⟩
    · simp only [main, hc]
      rw [exec_loop_step _ _ _ _ _ rfl s1, exec_loop_step _ _ _ _ _ rfl s2]
      exact exec_loop_halted _ _ _ (by simp)
    · rw [exec_trace_step _ _ _ _ _ rfl s1, exec_trace_step _ _ _ _ _ rfl s2,
        exec_trace_halted _ _ _ (by simp)]
      simp [dec_cell_runs, initial]
  | succ n =>
    have hc := compile_clear_loop n
    have hcell : to_cell ((n : Int) + 1) = (n + 1) % 256 := by
      unfold to_cell; omega
    have s1 : exec_step ⟨.IncCell, 1 * ((n : Int) + 1)⟩ (initial []) =
        some ⟨1, 0, tape_set (fun _ => 0) 0 ((n + 1) % 256), [], []⟩ := by
      simp only [exec_step, exec_switch, initial, TAPE_SIZE]
      simp [hcell]
    have s4 : exec_step ⟨.OutCell, 0⟩ ⟨4, 0, tape_set (fun _ => 0) 0 0, [], []⟩ =
        some ⟨5, 0, tape_set (fun _ => 0) 0 0, [], [0]⟩ := by
      simp [exec_step, exec_switch, TAPE_SIZE, tape_set]
    cases hv : (n + 1) % 256 with
    | zero =>
      rw [hv] at s1
      have s2 : exec_step ⟨.JumpFwd, 3⟩ ⟨1, 0, tape_set (fun _ => 0) 0 0, [], []⟩ =
          some ⟨4, 0, tape_set (fun _ => 0) 0 0, [], []⟩ := by
        simp [exec_step, exec_switch, TAPE_SIZE, tape_set, to_size_t]
      refine ⟨_, ⟨5, 0, tape_set (fun _ => 0) 0 0, [], [0]⟩, 3, hc, rfl, fun fuel => ⟨?_, ?_⟩⟩
      · simp only [main, hc]
        rw [exec_loop_step _ _ _ _ _ rfl s1, exec_loop_step _ _ _ _ _ rfl s2,
          exec_loop_step _ _ _ _ _ rfl s4]
        exact exec_loop_halted _ _ _ (by simp)
      · rw [exec_trace_step _ _ _ _ _ rfl s1, exec_trace_step _ _ _ _ _ rfl s2,
          exec_trace_step _ _ _ _ _ rfl s4, exec_trace_halted _ _ _ (by simp)]
        simp [dec_cell_runs, initial]
    | succ v =>
      rw [hv] at s1
      have hv256 : v < 256 := by omega
      have s2 : exec_step ⟨.JumpFwd, 3⟩ ⟨1, 0, tape_set (fun _ => 0) 0 (v + 1), [], []⟩ =
          some ⟨2, 0, tape_set (fun _ => 0) 0 (v + 1), [], []⟩ := by
        simp [exec_step, exec_switch, TAPE_SIZE, tape_set]
      obtain ⟨P, hP⟩ : ∃ P : List ins, P = [⟨.IncCell, 1 * ((n : Int) + 1)⟩, ⟨.JumpFwd, 3⟩,
          ⟨.DecCell, -1⟩, ⟨.JumpBwd, 1⟩, ⟨.OutCell, 0⟩] := ⟨_, rfl⟩
      have p0 : P[(initial []).iptr]? = some ⟨.IncCell, 1 * ((n : Int) + 1)⟩ := by
        rw [hP]; rfl
      have p1 : P[1]? = some ⟨.JumpFwd, 3⟩ := by rw [hP]; rfl
      have p2 : P[1 + 1]? = some ⟨.DecCell, -1⟩ := by rw [hP]; rfl
      have p3 : P[1 + 2]? = some ⟨.JumpBwd, ((1 : Nat) : Int)⟩ := by rw [hP]; rfl
      have p4 : P[4]? = some ⟨.OutCell, 0⟩ := by rw [hP]; rfl
      have hlen : P.length = 5 := by rw [hP]; rfl
      rw [← hP] at hc
      refine ⟨P, ⟨5, 0, tape_set (fun _ => 0) 0 0, [], [0]⟩, 1 + 2 * (v + 1) + 1 + 1, hc,
        rfl, fun fuel => ?_⟩
      obtain ⟨l1, l2⟩ := clear_loop_run P 1 [] [] p2 p3 (by decide) v hv256 (fuel + 1)
      have e : fuel + (1 + 2 * (v + 1) + 1 + 1) = fuel + 1 + 2 * (v + 1) + 1 + 1 := by omega
      rw [e]
      constructor
      · simp only [main, hc]
        rw [exec_loop_step P _ _ _ _ p0 s1, exec_loop_step P _ _ _ _ p1 s2, l1,
          exec_loop_step P _ _ _ _ p4 s4]
        exact exec_loop_halted _ _ _ (by simp [hlen])
      · rw [exec_trace_step P _ _ _ _ p0 s1, exec_trace_step P _ _ _ _ p1 s2]
        have hd0 : decide ((P[(initial []).iptr]?).map ins.com = some com.DecCell) = false := by
          rw [p0]; rfl
        have hd1 : decide ((P[1]?).map ins.com = some com.DecCell) = false := by
          rw [p1]; rfl
        have hd4 : decide ((P[4]?).map ins.com = some com.DecCell) = false := by
          rw [p4]; rfl
        have l3 : dec_cell_runs P (exec_trace P (fuel + 1)
            ⟨1 + 3, 0, tape_set (fun _ => 0) 0 0, [], []⟩) = 0 := by
          rw [exec_trace_step P _ _ _ _ p4 s4, exec_trace_halted _ _ _ (by simp [hlen])]
          simp only [dec_cell_runs, List.countP_cons, hd4, List.countP_nil]
          rfl
        rw [l3] at l2
        simp only [dec_cell_runs, List.countP_cons, hd0, hd1] at l2 ⊢
        simp at l2 ⊢
        exact l2

/-- C20. When `InpCell` executes on an exhausted input, in a state whose addressed cell
is inside the tape, the step succeeds, the addressed cell becomes `255`, every other cell,
the data pointer and the output are unchanged and the instruction pointer moves to the
next instruction; the run of `main` on `,.` with an empty input writes the byte `255`. -/
theorem input_at_end_of_input (s : State) (d : Int) (fuel : Nat) (hin : s.input = [])
    (hd : s.dptr < TAPE_SIZE) (hi : s.iptr + 1 < 18446744073709551616) :
    (∃ t, exec_step ⟨.InpCell, d⟩ s = some t ∧ t.tape s.dptr = 255 ∧
        (∀ k, k ≠ s.dptr → t.tape k = s.tape k) ∧ t.dptr = s.dptr ∧ t.iptr = s.iptr + 1 ∧
        t.output = s.output ∧ t.input = []) ∧
      ∃ r, main [',', '.'] [] (fuel + 2) = .halted r ∧ r.output = [255] := by
  have hcell : to_cell (-1) = 255 := by decide
  constructor
  · refine ⟨⟨s.iptr + 1, s.dptr, tape_set s.tape s.dptr 255, [], s.output⟩, ?_,
      by simp [tape_set], fun k hk => by simp [tape_set, hk], rfl, rfl, rfl, rfl⟩
    simp [exec_step, exec_switch, hd, hin, hcell, Nat.mod_eq_of_lt hi]
  · refine ⟨⟨2, 0, tape_set (fun _ => 0) 0 255, [], [255]⟩, ?_, rfl⟩
    simp only [main, compile_comma_dot]
    rw [exec_loop_step [⟨.InpCell, 0⟩, ⟨.OutCell, 0⟩] _ (initial [])
      ⟨1, 0, tape_set (fun _ => 0) 0 255, [], []⟩ ⟨.InpCell, 0⟩ rfl
      (by simp [exec_step, exec_switch, initial, TAPE_SIZE, hcell])]
    rw [exec_loop_step [⟨.InpCell, 0⟩, ⟨.OutCell, 0⟩] _
      ⟨1, 0, tape_set (fun _ => 0) 0 255, [], []⟩
      ⟨2, 0, tape_set (fun _ => 0) 0 255, [], [255]⟩ ⟨.OutCell, 0⟩ rfl
      (by simp [exec_step, exec_switch, TAPE_SIZE, tape_set])]
    exact exec_loop_halted _ _ _ (by simp)

/-- Witness of C20: the initial state with an empty input. -/
theorem input_at_end_of_input_witness :
    (∃ t, exec_step ⟨.InpCell, 0⟩ (initial []) = some t ∧ t.tape (initial []).dptr = 255 ∧
        (∀ k, k ≠ (initial []).dptr → t.tape k = (initial []).tape k) ∧
        t.dptr = (initial []).dptr ∧ t.iptr = (initial []).iptr + 1 ∧
        t.output = (initial []).output ∧ t.input = []) ∧
      ∃ r, main [',', '.'] [] (0 + 2) = .halted r ∧ r.output = [255] :=
  input_at_end_of_input (initial []) 0 0 rfl (by decide) (by decide)

end Brainfuck
